import Mathlib

/-!
Verification of the safe-renaming core of the `file_renamer` repository.

The central object is `FileSystem` (src/file_system.py), a Python `set` of
`pathlib.Path` objects.  We embed POSIX pure paths as a structure holding an
absoluteness flag and a list of name segments, and we embed the string-level
operations the Python code performs (`str(path)`, `str.startswith`,
`Path.match`, `Path.__truediv__`, `Path.with_stem`, ...) as functions on
`List Char`, mirroring CPython's `pathlib` semantics (POSIX flavour:
case-sensitive matching, `.` and empty segments dropped at parse time).
fnmatch-style bracket character classes are not modelled; the glob matcher
supports the `*` and `?` metacharacters, which is faithful for all patterns
free of brackets.
-/

namespace FileRenamer

/-- A path name segment / an arbitrary piece of path text. -/
abbrev Name := List Char

/-- A POSIX pure path: an absoluteness flag plus name segments, the embedding
of `pathlib.Path` values (for genuine pathlib paths every segment is nonempty,
contains no `/` and is not `.`; `validSeg` states this). -/
structure Path where
  absolute : Bool
  segments : List Name
deriving DecidableEq, Repr

/-- A genuine pathlib name segment: nonempty, slash-free, not `.`. -/
def validSeg (s : Name) : Bool :=
  !s.isEmpty && s.all (fun c => c ≠ '/') && s ≠ ['.']

/-- All segments of the path are genuine pathlib segments. -/
def validPath (p : Path) : Bool :=
  p.segments.all validSeg

/-- Render a segment list the way `str(path)` does: segments joined by `/`. -/
def segsStr : List Name → Name
  | [] => []
  | [s] => s
  | s :: s2 :: rest => s ++ '/' :: segsStr (s2 :: rest)

/-- `str(path)` for our paths: `/`-prefixed join for absolute paths, `.` for
the empty relative path. -/
def pathStr (p : Path) : Name :=
  if p.absolute then '/' :: segsStr p.segments
  else if p.segments.isEmpty then ['.'] else segsStr p.segments

/-- Split a piece of path text on `/`, keeping empty chunks (the raw split). -/
def splitSlash : Name → List Name
  | [] => [[]]
  | c :: rest =>
    if c = '/' then [] :: splitSlash rest
    else
      match splitSlash rest with
      | [] => [[c]]
      | g :: gs => (c :: g) :: gs

/-- Parse path text into pathlib segments: split on `/` and drop the empty
and `.` chunks, as CPython's `_parse_parts` does. -/
def splitSegs (s : Name) : List Name :=
  (splitSlash s).filter (fun g => !g.isEmpty && g ≠ ['.'])

/-- `path / s` where `s` is a string: if `s` is absolute it wins, otherwise
its parsed segments are appended (CPython `PurePath.__truediv__`). -/
def strJoin (p : Path) (s : Name) : Path :=
  if s.head? = some '/' then ⟨true, splitSegs s⟩
  else ⟨p.absolute, p.segments ++ splitSegs s⟩

/-- `path.parent`: drop the last segment; the root and the empty relative
path are their own parents. -/
def Path.parent (p : Path) : Path :=
  if p.segments.isEmpty then p else ⟨p.absolute, p.segments.dropLast⟩

/-- `path.name`: the last segment, or empty for `/` and `.`. -/
def Path.name (p : Path) : Name :=
  (p.segments.getLast?).getD []

/-- Index of the last `.` in a name, if any (CPython `str.rfind`). -/
def rfindDot : Name → Option Nat
  | [] => none
  | c :: cs =>
    match rfindDot cs with
    | some i => some (i + 1)
    | none => if c = '.' then some 0 else none

/-- `PurePath.suffix` on a bare name: the part from the last dot on, provided
that dot is neither the first nor the last character; else empty. -/
def nameSuffix (n : Name) : Name :=
  match rfindDot n with
  | some i => if 0 < i ∧ i < n.length - 1 then n.drop i else []
  | none => []

/-- `PurePath.stem` on a bare name: the complement of `nameSuffix`. -/
def nameStem (n : Name) : Name :=
  match rfindDot n with
  | some i => if 0 < i ∧ i < n.length - 1 then n.take i else n
  | none => n

/-- `path.with_name(n)`: replace the last segment. -/
def with_name (p : Path) (n : Name) : Path :=
  ⟨p.absolute, p.segments.dropLast ++ [n]⟩

/-- `path.with_stem(s)`: replace the stem, keeping the suffix. -/
def with_stem (p : Path) (s : Name) : Path :=
  with_name p (s ++ nameSuffix (Path.name p))

/-- `path.with_name(n)` with CPython's error behavior: it raises
`ValueError` when the path has an empty name (as `Path('/')` and
`Path('.')` do) or when the new name is invalid — empty, containing the
separator, or equal to `"."`.  `with_name` above is the restriction of
this function to its success domain. -/
def with_nameE (p : Path) (n : Name) : Except Unit Path :=
  if (Path.name p).isEmpty then .error ()
  else if validSeg n then .ok ⟨p.absolute, p.segments.dropLast ++ [n]⟩
  else .error ()

/-- `path.with_stem(s)` with CPython's error behavior:
`self.with_name(stem + self.suffix)`. -/
def with_stemE (p : Path) (s : Name) : Except Unit Path :=
  with_nameE p (s ++ nameSuffix (Path.name p))

/-- fnmatch-style glob matching of one pattern segment against one name
segment, supporting the `*` and `?` metacharacters (no bracket classes).
Structural in the pattern, so it evaluates by `decide`. -/
def globMatch : Name → Name → Bool
  | [], t => t.isEmpty
  | c :: ps, t =>
    if c = '*' then (t.tails).any (fun s => globMatch ps s)
    else if c = '?' then
      match t with
      | [] => false
      | _ :: ts => globMatch ps ts
    else
      match t with
      | [] => false
      | d :: ts => c = d && globMatch ps ts

/-- Match a list of pattern segments against a list of name segments,
position by position (lengths must agree). -/
def matchSegs : List Name → List Name → Bool
  | [], [] => true
  | p :: ps, n :: ns => globMatch p n && matchSegs ps ns
  | _, _ => false

/-- `PurePath.match`: an absolute pattern must match the whole path, a
relative pattern is matched from the right. -/
def pathMatch (c : Path) (patAbsolute : Bool) (patSegs : List Name) : Bool :=
  if patAbsolute then c.absolute && matchSegs patSegs c.segments
  else
    decide (patSegs.length ≤ c.segments.length) &&
      matchSegs patSegs (c.segments.drop (c.segments.length - patSegs.length))

/-- The pattern `f"{path}/*"` of `FileSystem.children`, parsed back into a
pattern path the way `PurePath.match` parses its argument. -/
def childPattern (p : Path) : Bool × List Name :=
  if (pathStr p ++ ['/', '*']).head? = some '/' then (true, splitSegs (pathStr p ++ ['/', '*']))
  else (false, splitSegs (pathStr p ++ ['/', '*']))

/-- The test applied by `FileSystem.children` to each candidate.  For the
root path the pattern string is `//*`, whose POSIX root `//` matches no
ordinary absolute path. -/
def childMatch (p c : Path) : Bool :=
  if p.absolute && p.segments.isEmpty then false
  else pathMatch c (childPattern p).1 (childPattern p).2

/-- `FileSystem.children(path)`: the members of the set matching the glob
pattern `f"{path}/*"`. -/
def children (fs : Finset Path) (p : Path) : Finset Path :=
  fs.filter (fun c => childMatch p c = true)

/-- The real filesystem, as an oracle: concrete-mode `FileSystem` objects
delegate existence tests (`path.exists()`) and sibling enumeration
(`path.parent.glob("*")`) to it. -/
structure RealFS where
  realExists : Path → Bool
  realGlobChildren : Path → List Path

/-- The `FileSystem` object: its current set of paths, plus the mode chosen
at construction time (pure when the initial paths were non-empty). -/
structure FileSystem where
  paths : Finset Path
  pureMode : Bool
deriving DecidableEq

/-- `FileSystem.__init__(paths)`: seed the set; the mode is pure exactly when
some initial paths were provided. -/
def FileSystem.init (initPaths : List Path) : FileSystem :=
  ⟨initPaths.toFinset, !initPaths.isEmpty⟩

/-- `self.path_exists(path)`: membership in the set (pure mode) or the real
filesystem (concrete mode). -/
def path_exists (rfs : RealFS) (fs : FileSystem) (p : Path) : Bool :=
  if fs.pureMode then decide (p ∈ fs.paths) else rfs.realExists p

/-- `self.siblings(path)`: `children(path.parent)` in pure mode, the real
`path.parent.glob("*")` in concrete mode. -/
def siblings (rfs : RealFS) (fs : FileSystem) (p : Path) : Finset Path :=
  if fs.pureMode then children fs.paths (Path.parent p)
  else (rfs.realGlobChildren (Path.parent p)).toFinset

/-- The loop of `FileSystem.update_with_source_paths`: check each source path
and accumulate its siblings in the local `result` set.  The `FileSystem` is
threaded through to record the state at each point; an absent source raises
`FileNotFoundError(source_path)`, embedded as an `error` carrying the missing
path and the state at raise time. -/
def updateLoop (rfs : RealFS) :
    List Path → FileSystem → Finset Path → Except (Path × FileSystem) (FileSystem × Finset Path)
  | [], fs, result => .ok (fs, result)
  | s :: rest, fs, result =>
    if path_exists rfs fs s then updateLoop rfs rest fs (result ∪ siblings rfs fs s)
    else .error (s, fs)

/-- `FileSystem.update_with_source_paths(source_paths)`: run the loop, then
`self.update(result)`. -/
def update_with_source_paths (rfs : RealFS) (fs : FileSystem) (sourcePaths : List Path) :
    Except (Path × FileSystem) FileSystem :=
  match updateLoop rfs sourcePaths fs ∅ with
  | .error e => .error e
  | .ok (fs2, result) => .ok ⟨fs2.paths ∪ result, fs2.pureMode⟩

/-- Python's decimal rendering `f"{n}"` of a natural number. -/
def natDec (n : Nat) : Name :=
  if n = 0 then ['0'] else ((Nat.digits 10 n).map Nat.digitChar).reverse

/-- The candidate of `FileSystem.non_existing_sibling` at a given suffix:
`path.with_stem(f"{digest}-{suffix}")` where `digest` is the first 32
characters of the hex digest of the stem.  The digest function
(`sha256(...).hexdigest()`) is abstracted as a parameter. -/
def candidateSibling (digestFn : Name → Name) (p : Path) (n : Nat) : Path :=
  with_stem p ((digestFn (nameStem (Path.name p))).take 32 ++ '-' :: natDec n)

/-- The candidate construction of `FileSystem.non_existing_sibling` with
CPython's error behavior: `path.with_stem(f"{digest}-{suffix}")` raises
exactly when the path has an empty name or the constructed name is
invalid. -/
def candidateSiblingE (digestFn : Name → Name) (p : Path) (n : Nat) : Except Unit Path :=
  with_stemE p ((digestFn (nameStem (Path.name p))).take 32 ++ '-' :: natDec n)

/-- `digitChar` is injective below ten. -/
theorem digitChar_inj_lt :
    ∀ a, a < 10 → ∀ b, b < 10 → Nat.digitChar a = Nat.digitChar b → a = b := by
  decide

/-- Python's decimal rendering is injective. -/
theorem natDec_injective : Function.Injective natDec := by
  have key : ∀ m : Nat, m ≠ 0 → ((Nat.digits 10 m).map Nat.digitChar).reverse = ['0'] → False := by
    intro m hm hrev
    have h1 : (Nat.digits 10 m).map Nat.digitChar = ['0'] := by
      have := congrArg List.reverse hrev
      simpa using this
    have h2 : Nat.digits 10 m = [0] := by
      rcases hd : Nat.digits 10 m with _ | ⟨d, rest⟩
      · rw [hd] at h1; simp at h1
      · rw [hd] at h1
        rcases rest with _ | ⟨d2, rest2⟩
        · simp at h1
          have hdlt : d < 10 := Nat.digits_lt_base (by norm_num) (by rw [hd]; simp)
          have : d = 0 := digitChar_inj_lt d hdlt 0 (by norm_num) (by simpa using h1)
          rw [this]
        · simp at h1
    have : m = 0 := by
      have := congrArg (Nat.ofDigits 10) h2
      rwa [Nat.ofDigits_digits, Nat.ofDigits] at this
    exact hm this
  intro a b hab
  unfold natDec at hab
  by_cases ha : a = 0 <;> by_cases hb : b = 0
  · omega
  · exfalso; rw [if_pos ha, if_neg hb] at hab; exact key b hb hab.symm
  · exfalso; rw [if_neg ha, if_pos hb] at hab; exact key a ha hab
  · rw [if_neg ha, if_neg hb] at hab
    have hmap : (Nat.digits 10 a).map Nat.digitChar = (Nat.digits 10 b).map Nat.digitChar := by
      have := congrArg List.reverse hab
      simpa using this
    have hda : Nat.digits 10 a = Nat.digits 10 b := by
      have hlen : (Nat.digits 10 a).length = (Nat.digits 10 b).length := by
        have := congrArg List.length hmap
        simpa using this
      apply List.ext_getElem hlen
      intro i h1 h2
      have hga : (Nat.digits 10 a)[i] < 10 :=
        Nat.digits_lt_base (by norm_num) (List.getElem_mem h1)
      have hgb : (Nat.digits 10 b)[i] < 10 :=
        Nat.digits_lt_base (by norm_num) (List.getElem_mem h2)
      have e1 : (List.map Nat.digitChar (Nat.digits 10 a)).getD i ' ' =
          Nat.digitChar ((Nat.digits 10 a)[i]) := by
        rw [List.getD_eq_getElem _ _ (by simpa using h1), List.getElem_map]
      have e2 : (List.map Nat.digitChar (Nat.digits 10 b)).getD i ' ' =
          Nat.digitChar ((Nat.digits 10 b)[i]) := by
        rw [List.getD_eq_getElem _ _ (by simpa using h2), List.getElem_map]
      have : Nat.digitChar ((Nat.digits 10 a)[i]) = Nat.digitChar ((Nat.digits 10 b)[i]) := by
        rw [← e1, ← e2, hmap]
      exact digitChar_inj_lt _ hga _ hgb this
    have := congrArg (Nat.ofDigits 10) hda
    rwa [Nat.ofDigits_digits, Nat.ofDigits_digits] at this

/-- Distinct suffixes produce distinct candidate paths. -/
theorem candidateSibling_injective (digestFn : Name → Name) (p : Path) :
    Function.Injective (candidateSibling digestFn p) := by
  intro a b hab
  unfold candidateSibling with_stem with_name at hab
  have hseg := congrArg Path.segments hab
  simp only at hseg
  have hname : (digestFn (nameStem (Path.name p))).take 32 ++
      ('-' :: (natDec a ++ nameSuffix (Path.name p))) =
      (digestFn (nameStem (Path.name p))).take 32 ++
      ('-' :: (natDec b ++ nameSuffix (Path.name p))) := by
    have hlast := List.append_cancel_left hseg
    simpa [List.append_assoc] using hlast
  have h1 := List.append_cancel_left hname
  have h2 : natDec a ++ nameSuffix (Path.name p) = natDec b ++ nameSuffix (Path.name p) := by
    simpa using h1
  exact natDec_injective (List.append_cancel_right h2)

/-- The suffix search of `non_existing_sibling` always succeeds: the
candidates are pairwise distinct while the set is finite. -/
theorem freshIndexExists (digestFn : Name → Name) (fs : Finset Path) (p : Path) :
    ∃ n, candidateSibling digestFn p n ∉ fs := by
  by_contra hall
  push_neg at hall
  have hsub : (Finset.range (fs.card + 1)).image (candidateSibling digestFn p) ⊆ fs := by
    intro q hq
    rcases Finset.mem_image.1 hq with ⟨n, _, rfl⟩
    exact hall n
  have hcard := Finset.card_le_card hsub
  rw [Finset.card_image_of_injective _ (candidateSibling_injective digestFn p),
    Finset.card_range] at hcard
  omega

/-- `FileSystem.non_existing_sibling(path)`: the candidate at the smallest
suffix that is absent from the set (the `for suffix in count()` loop). -/
def non_existing_sibling (digestFn : Name → Name) (fs : Finset Path) (p : Path) : Path :=
  candidateSibling digestFn p (Nat.find (freshIndexExists digestFn fs p))

/-- `FileSystem.non_existing_sibling` with CPython's error behavior.  Each
loop iteration builds its candidate with `with_stem`, and whether that
construction succeeds does not depend on the loop index — the counter
renders only decimal digits (`candidateSiblingE_ok_iff`: the success
condition mentions only the path and the digest).  So the very first
iteration either raises `ValueError` — when the path has an empty name, or
the digest renders an invalid name — or no iteration raises and the loop
returns the first absent candidate, as in `non_existing_sibling`. -/
def non_existing_siblingE (digestFn : Name → Name) (fs : Finset Path) (p : Path) :
    Except Unit Path :=
  match candidateSiblingE digestFn p 0 with
  | .error e => .error e
  | .ok _ => .ok (non_existing_sibling digestFn fs p)

/-- The test of the `FileSystem.rename` loop:
`candidate == path or str(candidate).startswith(f"{path}/")`. -/
def renMatches (path c : Path) : Bool :=
  c = path || (pathStr path ++ ['/']).isPrefixOf (pathStr c)

/-- `c` lies strictly under `src` in the path hierarchy: same anchor, and
`src`'s segments are a proper prefix of `c`'s. -/
def strictlyUnder (src c : Path) : Prop :=
  src.absolute = c.absolute ∧ src.segments <+: c.segments ∧ src.segments ≠ c.segments

instance (src c : Path) : Decidable (strictlyUnder src c) := by
  unfold strictlyUnder
  infer_instance

/-- The replacement computed by the `FileSystem.rename` loop:
`new_path / str(candidate)[offset:]` with `offset = len(str(path)) + 1`. -/
def renImage (path newPath c : Path) : Path :=
  strJoin newPath ((pathStr c).drop ((pathStr path).length + 1))

/-- One iteration of the `FileSystem.rename` loop: a matching candidate is
removed and its image under the new path is added. -/
def renameStep (path newPath : Path) (fs : Finset Path) (c : Path) : Finset Path :=
  if renMatches path c then insert (renImage path newPath c) (fs.erase c) else fs

/-- `FileSystem.rename(path, new_path)`: iterate over a snapshot `list(self)`
of the set (the snapshot order is passed explicitly, since Python's set
iteration order is unspecified). -/
def renameLoop (path newPath : Path) : List Path → Finset Path → Finset Path
  | [], fs => fs
  | c :: rest, fs => renameLoop path newPath rest (renameStep path newPath fs c)

/-! ## Lemmas about `update_with_source_paths` -/

/-- In the loop, the `FileSystem` itself is never modified: an error returns
it exactly as it was at entry. -/
theorem updateLoop_error_state (rfs : RealFS) :
    ∀ (l : List Path) (fs : FileSystem) (acc : Finset Path) (m : Path) (fs2 : FileSystem),
      updateLoop rfs l fs acc = .error (m, fs2) →
      fs2 = fs ∧ m ∈ l ∧ path_exists rfs fs m = false := by
  intro l
  induction l with
  | nil => intro fs acc m fs2 h; simp [updateLoop] at h
  | cons s rest ih =>
    intro fs acc m fs2 h
    rw [updateLoop] at h
    by_cases hs : path_exists rfs fs s = true
    · rw [if_pos hs] at h
      obtain ⟨h1, h2, h3⟩ := ih fs _ m fs2 h
      exact ⟨h1, List.mem_cons_of_mem _ h2, h3⟩
    · rw [if_neg hs] at h
      obtain ⟨rfl, rfl⟩ : m = s ∧ fs2 = fs := by
        constructor <;> [exact (congrArg (fun e => match e with
          | .error (a, _) => a | .ok _ => m) h).symm;
          exact (congrArg (fun e => match e with
          | .error (_, b) => b | .ok _ => fs2) h).symm]
      exact ⟨rfl, List.mem_cons_self _ _, Bool.eq_false_iff.2 hs⟩

/-- When every source path exists, the loop succeeds, keeps the
`FileSystem` unchanged, and only accumulates siblings. -/
theorem updateLoop_ok (rfs : RealFS) :
    ∀ (l : List Path) (fs : FileSystem) (acc : Finset Path),
      (∀ s ∈ l, path_exists rfs fs s = true) →
      ∃ res, updateLoop rfs l fs acc = .ok (fs, res) ∧
        ∀ x ∈ res, x ∈ acc ∨ ∃ s ∈ l, x ∈ siblings rfs fs s := by
  intro l
  induction l with
  | nil => intro fs acc _; exact ⟨acc, rfl, fun x hx => Or.inl hx⟩
  | cons s rest ih =>
    intro fs acc hall
    obtain ⟨res, hres, hsub⟩ := ih fs (acc ∪ siblings rfs fs s)
      (fun t ht => hall t (List.mem_cons_of_mem _ ht))
    refine ⟨res, ?_, ?_⟩
    · rw [updateLoop, if_pos (hall s (List.mem_cons_self _ _))]; exact hres
    · intro x hx
      rcases hsub x hx with h | ⟨t, ht, hxt⟩
      · rcases Finset.mem_union.1 h with h | h
        · exact Or.inl h
        · exact Or.inr ⟨s, List.mem_cons_self _ _, h⟩
      · exact Or.inr ⟨t, List.mem_cons_of_mem _ ht, hxt⟩

/-- The loop errors exactly when some source path fails the existence test. -/
theorem updateLoop_error_iff (rfs : RealFS) :
    ∀ (l : List Path) (fs : FileSystem) (acc : Finset Path),
      (∃ e, updateLoop rfs l fs acc = .error e) ↔
        ∃ s ∈ l, path_exists rfs fs s = false := by
  intro l
  induction l with
  | nil =>
    intro fs acc
    constructor
    · rintro ⟨e, he⟩; simp [updateLoop] at he
    · rintro ⟨s, hs, _⟩; simp at hs
  | cons s rest ih =>
    intro fs acc
    rw [updateLoop]
    by_cases hs : path_exists rfs fs s = true
    · rw [if_pos hs, ih]
      constructor
      · rintro ⟨t, ht, hft⟩; exact ⟨t, List.mem_cons_of_mem _ ht, hft⟩
      · rintro ⟨t, ht, hft⟩
        rcases List.mem_cons.1 ht with rfl | ht
        · rw [hs] at hft; cases hft
        · exact ⟨t, ht, hft⟩
    · rw [if_neg hs]
      exact ⟨fun _ => ⟨s, List.mem_cons_self _ _, Bool.eq_false_iff.2 hs⟩,
        fun _ => ⟨(s, fs), rfl⟩⟩

/-- In pure mode, siblings are already members of the set. -/
theorem siblings_pure_subset (rfs : RealFS) (fs : FileSystem) (p : Path)
    (hpure : fs.pureMode = true) : siblings rfs fs p ⊆ fs.paths := by
  unfold siblings
  rw [if_pos hpure]
  exact Finset.filter_subset _ _

/-- In pure mode, with every source present, `update_with_source_paths` is a
no-op returning the very same `FileSystem`. -/
theorem update_pure_noop (rfs : RealFS) (fs : FileSystem) (srcs : List Path)
    (hpure : fs.pureMode = true) (hall : ∀ s ∈ srcs, s ∈ fs.paths) :
    update_with_source_paths rfs fs srcs = .ok fs := by
  have hex : ∀ s ∈ srcs, path_exists rfs fs s = true := by
    intro s hs
    unfold path_exists
    rw [if_pos hpure]
    exact decide_eq_true (hall s hs)
  obtain ⟨res, hres, hsub⟩ := updateLoop_ok rfs srcs fs ∅ hex
  unfold update_with_source_paths
  rw [hres]
  have hres_sub : res ⊆ fs.paths := by
    intro x hx
    rcases hsub x hx with h | ⟨s, _, hxs⟩
    · simp at h
    · exact siblings_pure_subset rfs fs s hpure hxs
  have hu : fs.paths ∪ res = fs.paths := Finset.union_eq_left.2 hres_sub
  show Except.ok ⟨fs.paths ∪ res, fs.pureMode⟩ = Except.ok fs
  rw [hu]

/-! ## Lemmas about glob matching and `children` -/

/-- A segment containing neither the metacharacters our matcher interprets
(`*`, `?`) nor the bracket classes it does not model. -/
def globFree (s : Name) : Bool :=
  s.all (fun c => c ≠ '*' && c ≠ '?' && c ≠ '[' && c ≠ ']')

/-- A sole `*` matches any segment. -/
theorem globMatch_star_any (t : Name) : globMatch ['*'] t = true := by
  have h1 : globMatch ['*'] t = t.tails.any (fun s => globMatch [] s) := rfl
  rw [h1]
  apply List.any_eq_true.2
  refine ⟨[], (List.mem_tails _ _).2 List.nil_suffix, rfl⟩

/-- A metacharacter-free pattern matches exactly itself. -/
theorem globMatch_literal (pat : Name) (hp : globFree pat = true) :
    ∀ t, (globMatch pat t = true ↔ pat = t) := by
  induction pat with
  | nil => intro t; cases t <;> simp [globMatch]
  | cons c ps ih =>
    have hp' : (¬(c = '*') ∧ ¬(c = '?')) ∧ globFree ps = true := by
      unfold globFree at hp
      rw [List.all_cons, Bool.and_eq_true] at hp
      obtain ⟨h1, h2⟩ := hp
      simp only [Bool.and_eq_true, decide_eq_true_eq] at h1
      exact ⟨⟨h1.1.1.1, h1.1.1.2⟩, h2⟩
    intro t
    cases t with
    | nil =>
      simp only [globMatch, if_neg hp'.1.1, if_neg hp'.1.2]
      simp
    | cons d ts =>
      simp only [globMatch, if_neg hp'.1.1, if_neg hp'.1.2]
      rw [Bool.and_eq_true, ih hp'.2 ts]
      constructor
      · rintro ⟨h1, rfl⟩
        have : c = d := by simpa using h1
        rw [this]
      · intro h
        injection h with h1 h2
        exact ⟨by simp [h1], h2⟩

/-- Matching metacharacter-free segments followed by a final `*` picks out
exactly the lists extending the literal segments by one extra segment. -/
theorem matchSegs_literal_star (ps : List Name) (hps : ps.all globFree = true) :
    ∀ ns, (matchSegs (ps ++ [['*']]) ns = true ↔ ∃ nl, ns = ps ++ [nl]) := by
  induction ps with
  | nil =>
    intro ns
    cases ns with
    | nil => simp [matchSegs]
    | cons n ns' =>
      cases ns' with
      | nil => simp [matchSegs, globMatch_star_any]
      | cons m ms => simp [matchSegs]
  | cons s ps' ih =>
    have hs : globFree s = true := by
      rw [List.all_cons, Bool.and_eq_true] at hps; exact hps.1
    have hps' : ps'.all globFree = true := by
      rw [List.all_cons, Bool.and_eq_true] at hps; exact hps.2
    intro ns
    cases ns with
    | nil => simp [matchSegs]
    | cons n ns' =>
      have : matchSegs ((s :: ps') ++ [['*']]) (n :: ns') =
          (globMatch s n && matchSegs (ps' ++ [['*']]) ns') := rfl
      rw [this, Bool.and_eq_true, globMatch_literal s hs n, ih hps' ns']
      constructor
      · rintro ⟨rfl, nl, rfl⟩; exact ⟨nl, rfl⟩
      · rintro ⟨nl, h⟩
        injection h with h1 h2
        exact ⟨h1.symm ▸ rfl, nl, h2⟩

/-- `splitSlash` of slash-free text is a single chunk. -/
theorem splitSlash_no_slash (s : Name) (h : '/' ∉ s) : splitSlash s = [s] := by
  induction s with
  | nil => rfl
  | cons c cs ih =>
    have hc : ¬(c = '/') := fun hh => h (hh ▸ List.mem_cons_self c cs)
    have hcs : '/' ∉ cs := fun hh => h (List.mem_cons_of_mem c hh)
    rw [splitSlash, if_neg hc, ih hcs]

/-- `splitSlash` peels a leading slash-free chunk. -/
theorem splitSlash_append (s t : Name) (h : '/' ∉ s) :
    splitSlash (s ++ '/' :: t) = s :: splitSlash t := by
  induction s with
  | nil => rw [List.nil_append, splitSlash, if_pos rfl]
  | cons c cs ih =>
    have hc : ¬(c = '/') := fun hh => h (hh ▸ List.mem_cons_self c cs)
    have hcs : '/' ∉ cs := fun hh => h (List.mem_cons_of_mem c hh)
    rw [List.cons_append, splitSlash, if_neg hc, ih hcs]

/-- A valid segment is slash-free. -/
theorem validSeg_no_slash (s : Name) (hs : validSeg s = true) : '/' ∉ s := by
  unfold validSeg at hs
  simp only [Bool.and_eq_true, List.all_eq_true, decide_eq_true_eq] at hs
  intro hmem
  exact hs.1.2 '/' hmem rfl

/-- A valid segment survives the `splitSegs` filter. -/
theorem validSeg_filter_keep (s : Name) (hs : validSeg s = true) :
    (!s.isEmpty && s ≠ ['.']) = true := by
  unfold validSeg at hs
  simp only [Bool.and_eq_true] at hs ⊢
  exact ⟨hs.1.1, hs.2⟩

/-- `splitSegs` keeps a leading valid segment. -/
theorem splitSegs_cons_valid (s t : Name) (hs : validSeg s = true) :
    splitSegs (s ++ '/' :: t) = s :: splitSegs t := by
  unfold splitSegs
  rw [splitSlash_append s t (validSeg_no_slash s hs), List.filter_cons,
    if_pos (validSeg_filter_keep s hs)]

/-- A leading slash is dropped by `splitSegs`. -/
theorem splitSegs_slash_cons (t : Name) : splitSegs ('/' :: t) = splitSegs t := by
  unfold splitSegs
  rw [splitSlash, if_pos rfl, List.filter_cons]
  simp

/-- `segsStr` of a cons with a nonempty tail. -/
theorem segsStr_cons (s : Name) (l : List Name) (hl : l ≠ []) :
    segsStr (s :: l) = s ++ '/' :: segsStr l := by
  cases l with
  | nil => cases hl rfl
  | cons s2 rest => rfl

/-- Parsing `segsStr l ++ "/" ++ t` recovers `l` then parses `t`. -/
theorem splitSegs_segsStr_append (l : List Name) (t : Name) (hl : l ≠ [])
    (hv : l.all validSeg = true) :
    splitSegs (segsStr l ++ '/' :: t) = l ++ splitSegs t := by
  induction l with
  | nil => cases hl rfl
  | cons s l' ih =>
    have hvs : validSeg s = true := by
      rw [List.all_cons, Bool.and_eq_true] at hv; exact hv.1
    have hvl' : l'.all validSeg = true := by
      rw [List.all_cons, Bool.and_eq_true] at hv; exact hv.2
    cases l' with
    | nil =>
      show splitSegs (segsStr [s] ++ '/' :: t) = [s] ++ splitSegs t
      rw [segsStr]
      exact splitSegs_cons_valid s t hvs
    | cons s2 rest =>
      rw [segsStr_cons s (s2 :: rest) (by simp), List.append_assoc, List.cons_append]
      rw [splitSegs_cons_valid s _ hvs, ih (by simp) hvl']
      rfl

/-- Parsing the rendering of valid segments is the identity. -/
theorem splitSegs_segsStr (l : List Name) (hv : l.all validSeg = true) :
    splitSegs (segsStr l) = l := by
  cases l with
  | nil => rfl
  | cons s l' =>
    have hvs : validSeg s = true := by
      rw [List.all_cons, Bool.and_eq_true] at hv; exact hv.1
    have hvl' : l'.all validSeg = true := by
      rw [List.all_cons, Bool.and_eq_true] at hv; exact hv.2
    cases l' with
    | nil =>
      show splitSegs (segsStr [s]) = [s]
      rw [segsStr]
      unfold splitSegs
      rw [splitSlash_no_slash s (validSeg_no_slash s hvs), List.filter_cons,
        if_pos (validSeg_filter_keep s hvs)]
      rfl
    | cons s2 rest =>
      rw [segsStr_cons s (s2 :: rest) (by simp)]
      rw [splitSegs_cons_valid s _ hvs, splitSegs_segsStr (s2 :: rest) hvl']

/-- The rendered string of an absolute path. -/
theorem pathStr_abs (p : Path) (habs : p.absolute = true) :
    pathStr p = '/' :: segsStr p.segments := by
  unfold pathStr
  rw [habs]
  simp

/-- The pattern of `children` for an absolute, non-root, valid path is the
path's own segments followed by a `*` segment. -/
theorem childPattern_abs (p : Path) (habs : p.absolute = true) (hne : p.segments ≠ [])
    (hv : validPath p = true) :
    childPattern p = (true, p.segments ++ [['*']]) := by
  unfold childPattern
  have hs : pathStr p ++ ['/', '*'] = '/' :: (segsStr p.segments ++ '/' :: ['*']) := by
    rw [pathStr_abs p habs]
    simp
  rw [hs]
  have hcond : List.head? ('/' :: (segsStr p.segments ++ '/' :: ['*'])) = some '/' := rfl
  rw [if_pos hcond]
  rw [splitSegs_slash_cons, splitSegs_segsStr_append p.segments ['*'] hne hv]
  rfl

/-- `childMatch` for an absolute, non-root, valid, metacharacter-free path
holds exactly on paths extending it by one segment. -/
theorem childMatch_abs_iff (p c : Path) (habs : p.absolute = true) (hne : p.segments ≠ [])
    (hv : validPath p = true) (hfree : p.segments.all globFree = true) :
    (childMatch p c = true ↔ c.absolute = true ∧ ∃ nl, c.segments = p.segments ++ [nl]) := by
  unfold childMatch
  have hie : ¬(p.absolute && p.segments.isEmpty) = true := by
    rw [habs]
    cases hseg : p.segments with
    | nil => cases hne hseg
    | cons a l => simp
  rw [if_neg hie, childPattern_abs p habs hne hv]
  unfold pathMatch
  rw [if_pos rfl, Bool.and_eq_true, matchSegs_literal_star p.segments hfree c.segments]

/-- `Path.parent c = p`, for non-root `p`, says exactly that `c` extends `p`
by one segment and agrees on absoluteness. -/
theorem parent_eq_iff (c p : Path) (hne : p.segments ≠ []) :
    Path.parent c = p ↔ c.absolute = p.absolute ∧ ∃ nl, c.segments = p.segments ++ [nl] := by
  obtain ⟨cabs, csegs⟩ := c
  obtain ⟨pabs, psegs⟩ := p
  simp only at hne ⊢
  unfold Path.parent
  cases csegs with
  | nil =>
    simp only [List.isEmpty_nil, if_true]
    constructor
    · intro h
      injection h with h1 h2
      exact absurd h2.symm hne
    · rintro ⟨h1, nl, h⟩
      exact absurd h (by simp)
  | cons a l =>
    rw [if_neg (by simp)]
    constructor
    · intro h
      injection h with h1 h2
      refine ⟨h1, (a :: l).getLast (by simp), ?_⟩
      conv_lhs => rw [← List.dropLast_append_getLast (l := a :: l) (by simp)]
      rw [h2]
    · rintro ⟨h1, nl, h2⟩
      subst h1
      congr 1
      rw [h2]
      simp

/-! ## Lemmas about stems, suffixes and `non_existing_sibling` -/

/-- A lowercase hex digit, the alphabet of `sha256(...).hexdigest()`. -/
def isHexChar (c : Char) : Bool :=
  c.isDigit || ('a' ≤ c && c ≤ 'f')

/-- Hex digits are not dots. -/
theorem isHexChar_ne_dot (c : Char) (h : isHexChar c = true) : c ≠ '.' := by
  intro hc
  subst hc
  exact absurd h (by decide)

/-- Hex digits are not separators. -/
theorem isHexChar_ne_slash (c : Char) (h : isHexChar c = true) : c ≠ '/' := by
  intro hc
  subst hc
  exact absurd h (by decide)

/-- `rfindDot` is `none` exactly on dot-free text. -/
theorem rfindDot_eq_none_iff (s : Name) : rfindDot s = none ↔ '.' ∉ s := by
  induction s with
  | nil => simp [rfindDot]
  | cons c cs ih =>
    rw [rfindDot]
    cases hcs : rfindDot cs with
    | some j =>
      simp only []
      constructor
      · intro h; cases h
      · intro h
        exfalso
        have : '.' ∉ cs := fun hm => h (List.mem_cons_of_mem c hm)
        rw [← ih] at this
        rw [hcs] at this
        cases this
    | none =>
      simp only []
      by_cases hc : c = '.'
      · rw [if_pos hc]
        constructor
        · intro h; cases h
        · intro h; exact absurd (hc ▸ List.mem_cons_self c cs) h
      · rw [if_neg hc]
        constructor
        · intro _
          intro hmem
          rcases List.mem_cons.1 hmem with h | h
          · exact hc h.symm
          · exact absurd h (ih.1 hcs)
        · intro _; rfl

/-- `rfindDot` on an append: the last dot of the right part wins. -/
theorem rfindDot_append (xs ys : Name) :
    rfindDot (xs ++ ys) =
      match rfindDot ys with
      | some j => some (xs.length + j)
      | none => rfindDot xs := by
  induction xs with
  | nil =>
    rw [List.nil_append]
    cases hys : rfindDot ys with
    | some j => simp
    | none => simp [rfindDot]
  | cons c cs ih =>
    rw [List.cons_append, rfindDot, ih, rfindDot]
    cases hys : rfindDot ys with
    | some j => simp [Nat.add_assoc, Nat.add_comm 1 j, Nat.succ_add]
    | none => cases rfindDot cs <;> simp

/-- What `rfindDot` finds really is a dot, with nothing but dot-free text
after it. -/
theorem rfindDot_spec (s : Name) (i : Nat) (h : rfindDot s = some i) :
    i < s.length ∧ s.drop i = '.' :: s.drop (i + 1) ∧ '.' ∉ s.drop (i + 1) := by
  induction s generalizing i with
  | nil => cases h
  | cons c cs ih =>
    rw [rfindDot] at h
    cases hcs : rfindDot cs with
    | some j =>
      rw [hcs] at h
      injection h with h
      subst h
      obtain ⟨h1, h2, h3⟩ := ih j hcs
      refine ⟨by simpa using Nat.succ_lt_succ h1, ?_, ?_⟩
      · show (c :: cs).drop (j + 1) = '.' :: (c :: cs).drop (j + 2)
        simpa [List.drop_succ_cons] using h2
      · simpa [List.drop_succ_cons] using h3
    | none =>
      rw [hcs] at h
      by_cases hc : c = '.'
      · rw [if_pos hc] at h
        injection h with h
        subst h
        subst hc
        exact ⟨by simp, by simp, (rfindDot_eq_none_iff cs).1 hcs⟩
      · rw [if_neg hc] at h
        cases h

/-- The suffix computed from a name is empty or a dot followed by nonempty
dot-free text. -/
theorem nameSuffix_form (n : Name) :
    nameSuffix n = [] ∨ ∃ e, nameSuffix n = '.' :: e ∧ e ≠ [] ∧ '.' ∉ e := by
  unfold nameSuffix
  cases hfd : rfindDot n with
  | none => exact Or.inl rfl
  | some i =>
    show (if 0 < i ∧ i < n.length - 1 then n.drop i else []) = [] ∨
      ∃ e, (if 0 < i ∧ i < n.length - 1 then n.drop i else []) = '.' :: e ∧ e ≠ [] ∧ '.' ∉ e
    by_cases hcond : 0 < i ∧ i < n.length - 1
    · rw [if_pos hcond]
      obtain ⟨h1, h2, h3⟩ := rfindDot_spec n i hfd
      refine Or.inr ⟨n.drop (i + 1), h2, ?_, h3⟩
      intro hnil
      have : n.length - (i + 1) = 0 := by
        rw [← List.length_drop, hnil]
        rfl
      omega
    · rw [if_neg hcond]
      exact Or.inl rfl

/-- Appending a legal suffix to a nonempty dot-free stem: `nameStem` and
`nameSuffix` recover the parts. -/
theorem split_stem_ext (st sfx : Name) (hst : '.' ∉ st) (hne : st ≠ [])
    (hsfx : sfx = [] ∨ ∃ e, sfx = '.' :: e ∧ e ≠ [] ∧ '.' ∉ e) :
    nameStem (st ++ sfx) = st ∧ nameSuffix (st ++ sfx) = sfx := by
  rcases hsfx with rfl | ⟨e, rfl, hene, hedot⟩
  · rw [List.append_nil]
    have hfd : rfindDot st = none := (rfindDot_eq_none_iff st).2 hst
    constructor
    · unfold nameStem; rw [hfd]
    · unfold nameSuffix; rw [hfd]
  · have hfd : rfindDot (st ++ '.' :: e) = some st.length := by
      rw [rfindDot_append]
      have h1 : rfindDot ('.' :: e) = some 0 := by
        rw [rfindDot, (rfindDot_eq_none_iff e).2 hedot, if_pos rfl]
      rw [h1]
      show some (st.length + 0) = some st.length
      rw [Nat.add_zero]
    have hcond : 0 < st.length ∧ st.length < (st ++ '.' :: e).length - 1 := by
      constructor
      · cases st with
        | nil => cases hne rfl
        | cons a l => simp
      · rw [List.length_append, List.length_cons]
        have : e.length ≠ 0 := fun h => hene (List.eq_nil_of_length_eq_zero h)
        omega
    constructor
    · unfold nameStem
      rw [hfd]
      show (if 0 < st.length ∧ st.length < (st ++ '.' :: e).length - 1
        then (st ++ '.' :: e).take st.length else st ++ '.' :: e) = st
      rw [if_pos hcond, List.take_left]
    · unfold nameSuffix
      rw [hfd]
      show (if 0 < st.length ∧ st.length < (st ++ '.' :: e).length - 1
        then (st ++ '.' :: e).drop st.length else []) = '.' :: e
      rw [if_pos hcond, List.drop_left]

/-- Decimal renderings contain no dot. -/
theorem natDec_no_dot (n : Nat) : '.' ∉ natDec n := by
  have hdc : ∀ d, d < 10 → Nat.digitChar d ≠ '.' := by decide
  unfold natDec
  by_cases hn : n = 0
  · rw [if_pos hn]
    intro h
    rcases List.mem_singleton.1 h with h
    cases h
  · rw [if_neg hn]
    intro h
    rw [List.mem_reverse] at h
    rcases List.mem_map.1 h with ⟨d, hd, hdot⟩
    exact hdc d (Nat.digits_lt_base (by norm_num) hd) hdot

/-- Python's decimal rendering never contains the separator. -/
theorem natDec_no_slash (n : Nat) : '/' ∉ natDec n := by
  have hdc : ∀ d, d < 10 → Nat.digitChar d ≠ '/' := by decide
  unfold natDec
  by_cases hn : n = 0
  · rw [if_pos hn]
    intro h
    rcases List.mem_singleton.1 h with h
    cases h
  · rw [if_neg hn]
    intro h
    rw [List.mem_reverse] at h
    rcases List.mem_map.1 h with ⟨d, hd, hdot⟩
    exact hdc d (Nat.digits_lt_base (by norm_num) hd) hdot

/-- The name of a fresh-sibling candidate splits into the generated stem and
the original suffix. -/
theorem candidateSibling_name (digestFn : Name → Name) (p : Path) (k : Nat)
    (hhex : ∀ c ∈ (digestFn (nameStem (Path.name p))).take 32, isHexChar c = true) :
    nameStem (Path.name (candidateSibling digestFn p k)) =
      (digestFn (nameStem (Path.name p))).take 32 ++ '-' :: natDec k ∧
    nameSuffix (Path.name (candidateSibling digestFn p k)) = nameSuffix (Path.name p) := by
  have hname : Path.name (candidateSibling digestFn p k) =
      ((digestFn (nameStem (Path.name p))).take 32 ++ '-' :: natDec k) ++
        nameSuffix (Path.name p) := by
    unfold candidateSibling with_stem with_name Path.name
    rw [List.getLast?_concat]
    rfl
  rw [hname]
  apply split_stem_ext
  · intro hmem
    rcases List.mem_append.1 hmem with h | h
    · exact isHexChar_ne_dot '.' (hhex '.' h) rfl
    · rcases List.mem_cons.1 h with h | h
      · cases h
      · exact natDec_no_dot k h
  · simp
  · exact nameSuffix_form (Path.name p)

/-- Characters of a name's suffix are characters of the name. -/
theorem nameSuffix_subset (n : Name) : ∀ c ∈ nameSuffix n, c ∈ n := by
  intro c
  unfold nameSuffix
  cases hfd : rfindDot n with
  | none =>
    intro hc
    exact absurd hc (List.not_mem_nil c)
  | some i =>
    show c ∈ (if 0 < i ∧ i < n.length - 1 then n.drop i else []) → c ∈ n
    by_cases hcond : 0 < i ∧ i < n.length - 1
    · rw [if_pos hcond]
      intro hc
      exact List.mem_of_mem_drop hc
    · rw [if_neg hcond]
      intro hc
      exact absurd hc (List.not_mem_nil c)

/-- The name of a path with segments is its last segment. -/
theorem name_mem_of_ne_nil (p : Path) (hne : p.segments ≠ []) :
    Path.name p ∈ p.segments := by
  unfold Path.name
  rw [List.getLast?_eq_getLast _ hne]
  exact List.getLast_mem hne

/-- On a genuine path, the name itself is a genuine segment. -/
theorem validSeg_name (p : Path) (hne : p.segments ≠ []) (hval : validPath p = true) :
    validSeg (Path.name p) = true := by
  unfold validPath at hval
  exact List.all_eq_true.1 hval _ (name_mem_of_ne_nil p hne)

/-- A genuine path with segments has a non-empty name. -/
theorem name_ne_nil (p : Path) (hne : p.segments ≠ []) (hval : validPath p = true) :
    Path.name p ≠ [] := by
  have h := validSeg_name p hne hval
  unfold validSeg at h
  rw [Bool.and_eq_true, Bool.and_eq_true] at h
  intro heq
  rw [heq] at h
  exact absurd h.1.1 (by decide)

/-- A genuine path's name is separator-free. -/
theorem name_no_slash (p : Path) (hne : p.segments ≠ []) (hval : validPath p = true) :
    ∀ c ∈ Path.name p, c ≠ '/' := by
  have h := validSeg_name p hne hval
  unfold validSeg at h
  rw [Bool.and_eq_true, Bool.and_eq_true] at h
  intro c hc
  exact of_decide_eq_true (List.all_eq_true.1 h.1.2 c hc)

/-- A genuine path's suffix is separator-free. -/
theorem suffix_no_slash (p : Path) (hne : p.segments ≠ []) (hval : validPath p = true) :
    ∀ c ∈ nameSuffix (Path.name p), c ≠ '/' := by
  intro c hc
  exact name_no_slash p hne hval c (nameSuffix_subset (Path.name p) c hc)

/-- A fresh-sibling candidate's name is a valid segment as soon as the
digest and the kept suffix are separator-free: the dash makes it non-empty
and distinct from `"."`, and the decimal counter contributes only digits. -/
theorem validSeg_candidate_name (D suf : Name) (n : Nat)
    (hd : ∀ c ∈ D, c ≠ '/') (hs : ∀ c ∈ suf, c ≠ '/') :
    validSeg ((D ++ '-' :: natDec n) ++ suf) = true := by
  unfold validSeg
  rw [Bool.and_eq_true, Bool.and_eq_true]
  refine ⟨⟨?_, ?_⟩, ?_⟩
  · rw [List.append_assoc]
    cases D with
    | nil => rfl
    | cons a D2 => rfl
  · rw [List.all_eq_true]
    intro c hc
    rcases List.mem_append.1 hc with h | h
    · rcases List.mem_append.1 h with h | h
      · exact decide_eq_true (hd c h)
      · rcases List.mem_cons.1 h with h | h
        · subst h
          decide
        · exact decide_eq_true (fun heq => natDec_no_slash n (heq ▸ h))
    · exact decide_eq_true (hs c h)
  · apply decide_eq_true
    intro heq
    have hmem : '-' ∈ (D ++ '-' :: natDec n) ++ suf :=
      List.mem_append.2 (Or.inl (List.mem_append.2 (Or.inr (List.mem_cons_self _ _))))
    rw [heq] at hmem
    rcases List.mem_singleton.1 hmem with h
    cases h

/-- The candidate construction succeeds exactly when the path has a name
and the digest and kept suffix are separator-free — a condition independent
of the loop index. -/
theorem candidateSiblingE_ok_iff (digestFn : Name → Name) (p : Path) (n : Nat) :
    candidateSiblingE digestFn p n = .ok (candidateSibling digestFn p n) ↔
      (Path.name p ≠ [] ∧
       (∀ c ∈ (digestFn (nameStem (Path.name p))).take 32, c ≠ '/') ∧
       (∀ c ∈ nameSuffix (Path.name p), c ≠ '/')) := by
  unfold candidateSiblingE with_stemE with_nameE candidateSibling with_stem with_name
  by_cases hname : (Path.name p).isEmpty = true
  · rw [if_pos hname]
    refine iff_of_false (fun h => by cases h) ?_
    rintro ⟨h1, -, -⟩
    exact h1 (List.isEmpty_iff.1 hname)
  · rw [if_neg hname]
    by_cases hv : validSeg (((digestFn (nameStem (Path.name p))).take 32 ++
        '-' :: natDec n) ++ nameSuffix (Path.name p)) = true
    · rw [if_pos hv]
      unfold validSeg at hv
      rw [Bool.and_eq_true, Bool.and_eq_true] at hv
      refine iff_of_true rfl ⟨?_, ?_, ?_⟩
      · intro heq
        exact hname (by rw [heq]; rfl)
      · intro c hc
        exact of_decide_eq_true (List.all_eq_true.1 hv.1.2 c
          (List.mem_append.2 (Or.inl (List.mem_append.2 (Or.inl hc)))))
      · intro c hc
        exact of_decide_eq_true (List.all_eq_true.1 hv.1.2 c
          (List.mem_append.2 (Or.inr hc)))
    · rw [if_neg hv]
      refine iff_of_false (fun h => by cases h) ?_
      rintro ⟨-, h2, h3⟩
      exact hv (validSeg_candidate_name _ _ n h2 h3)

/-! ## Lemmas about `rename` -/

/-- A nonempty prefix determines the head of the larger list. -/
theorem IsPrefix_head (A B : Name) (h : A <+: B) (hA : A ≠ []) : B.head? = A.head? := by
  obtain ⟨t, rfl⟩ := h
  cases A with
  | nil => cases hA rfl
  | cons a A' => rfl

/-- A valid segment is nonempty. -/
theorem validSeg_ne_nil (s : Name) (hs : validSeg s = true) : s ≠ [] := by
  unfold validSeg at hs
  simp only [Bool.and_eq_true, Bool.not_eq_true'] at hs
  exact fun h => by
    rw [h] at hs
    exact absurd hs.1.1 (by decide)

/-- `segsStr` of a nonempty valid list is nonempty. -/
theorem segsStr_ne_nil (l : List Name) (hl : l ≠ []) (hv : l.all validSeg = true) :
    segsStr l ≠ [] := by
  cases l with
  | nil => cases hl rfl
  | cons s l' =>
    have hs : validSeg s = true := by
      rw [List.all_cons, Bool.and_eq_true] at hv; exact hv.1
    have hsne := validSeg_ne_nil s hs
    cases l' with
    | nil => exact hsne
    | cons s2 rest =>
      rw [segsStr_cons s (s2 :: rest) (by simp)]
      cases s with
      | nil => cases hsne rfl
      | cons c0 s' => simp

/-- The rendering of valid segments never starts with a slash. -/
theorem segsStr_head_not_slash (l : List Name) (hv : l.all validSeg = true) :
    (segsStr l).head? ≠ some '/' := by
  cases l with
  | nil => simp [segsStr]
  | cons s l' =>
    have hs : validSeg s = true := by
      rw [List.all_cons, Bool.and_eq_true] at hv; exact hv.1
    have hs0 : ∀ ch ∈ s, ch ≠ '/' := by
      unfold validSeg at hs
      simp only [Bool.and_eq_true, List.all_eq_true, decide_eq_true_eq] at hs
      exact hs.1.2
    cases s with
    | nil => exact absurd hs (by decide)
    | cons c0 s' =>
      have hc0 : c0 ≠ '/' := hs0 c0 (List.mem_cons_self _ _)
      cases l' with
      | nil =>
        show (segsStr [c0 :: s']).head? ≠ some '/'
        rw [segsStr]
        intro h
        injection h with h
        exact hc0 h
      | cons s2 rest =>
        rw [segsStr_cons (c0 :: s') (s2 :: rest) (by simp)]
        intro h
        injection h with h
        exact hc0 h

/-- `segsStr` distributes over append of nonempty lists. -/
theorem segsStr_append (l1 l2 : List Name) (h1 : l1 ≠ []) (h2 : l2 ≠ []) :
    segsStr (l1 ++ l2) = segsStr l1 ++ '/' :: segsStr l2 := by
  induction l1 with
  | nil => cases h1 rfl
  | cons s l1' ih =>
    cases l1' with
    | nil =>
      rw [List.cons_append, List.nil_append, segsStr_cons s l2 h2, segsStr]
    | cons s1b l1'' =>
      rw [List.cons_append,
        segsStr_cons s ((s1b :: l1'') ++ l2) (by simp),
        segsStr_cons s (s1b :: l1'') (by simp),
        ih (by simp)]
      simp

/-- Separator-aware prefix: for slash-free `a` and `b`,
`a ++ '/' :: x <+: b ++ '/' :: y` holds exactly when `a = b` and `x <+: y`. -/
theorem slashfree_sep_pref (a : Name) :
    ∀ (b x y : Name), '/' ∉ a → '/' ∉ b →
      ((a ++ '/' :: x <+: b ++ '/' :: y) ↔ a = b ∧ x <+: y) := by
  induction a with
  | nil =>
    intro b x y _ hb
    cases b with
    | nil => simp
    | cons cb b' =>
      simp only [List.nil_append, List.cons_append, List.cons_prefix_cons]
      constructor
      · rintro ⟨h, _⟩
        exact absurd (h ▸ List.mem_cons_self cb b') hb
      · rintro ⟨h, _⟩
        cases h
  | cons ca a' ih =>
    intro b x y ha hb
    have ha' : '/' ∉ a' := fun h => ha (List.mem_cons_of_mem ca h)
    have hca : ca ≠ '/' := fun h => ha (h ▸ List.mem_cons_self ca a')
    cases b with
    | nil =>
      simp only [List.cons_append, List.nil_append, List.cons_prefix_cons]
      constructor
      · rintro ⟨h, _⟩
        exact absurd h hca
      · rintro ⟨h, _⟩
        cases h
    | cons cb b' =>
      have hb' : '/' ∉ b' := fun h => hb (List.mem_cons_of_mem cb h)
      simp only [List.cons_append, List.cons_prefix_cons]
      rw [ih b' x y ha' hb']
      constructor
      · rintro ⟨rfl, rfl, hxy⟩
        exact ⟨rfl, hxy⟩
      · rintro ⟨h, hxy⟩
        injection h with h1 h2
        exact ⟨h1, h2, hxy⟩

/-- All characters of a valid segment differ from slash (mem form). -/
theorem validSeg_mem_ne_slash (s : Name) (hs : validSeg s = true) : '/' ∉ s :=
  validSeg_no_slash s hs

/-- Separator-aware prefix over renderings of valid segment lists:
`segsStr l1 ++ "/"` prefixes `segsStr l2` exactly when `l1` is a proper
prefix of `l2`. -/
theorem segsStr_sep_pref (l1 : List Name) :
    ∀ (l2 : List Name), l1 ≠ [] → l1.all validSeg = true → l2.all validSeg = true →
      ((segsStr l1 ++ ['/'] <+: segsStr l2) ↔ (l1 <+: l2 ∧ l1 ≠ l2)) := by
  induction l1 with
  | nil => intro l2 h; cases h rfl
  | cons s1 l1' ih =>
    intro l2 _ hv1 hv2
    have hvs1 : validSeg s1 = true := by
      rw [List.all_cons, Bool.and_eq_true] at hv1; exact hv1.1
    have hv1' : l1'.all validSeg = true := by
      rw [List.all_cons, Bool.and_eq_true] at hv1; exact hv1.2
    cases l1' with
    | nil =>
      cases l2 with
      | nil =>
        constructor
        · intro h
          exfalso
          have hx : segsStr [s1] ++ ['/'] <+: ([] : Name) := by simpa [segsStr] using h
          exact absurd (List.prefix_nil.1 hx) (by simp)
        · rintro ⟨hp, _⟩
          exact absurd (List.prefix_nil.1 hp) (by simp)
      | cons s2 l2' =>
        have hvs2 : validSeg s2 = true := by
          rw [List.all_cons, Bool.and_eq_true] at hv2; exact hv2.1
        have hv2' : l2'.all validSeg = true := by
          rw [List.all_cons, Bool.and_eq_true] at hv2; exact hv2.2
        cases l2' with
        | nil =>
          constructor
          · intro h
            exfalso
            have hsub : ('/' : Char) ∈ s2 := by
              have hmem : ('/' : Char) ∈ segsStr [s1] ++ ['/'] := by simp
              have := h.subset hmem
              simpa [segsStr] using this
            exact validSeg_mem_ne_slash s2 hvs2 hsub
          · rintro ⟨hp, hne2⟩
            exfalso
            rw [List.cons_prefix_cons] at hp
            exact hne2 (by rw [hp.1])
        | cons s3 l2'' =>
          rw [segsStr_cons s2 (s3 :: l2'') (by simp)]
          have hpat : segsStr [s1] ++ ['/'] = s1 ++ '/' :: ([] : Name) := by simp [segsStr]
          rw [hpat, slashfree_sep_pref s1 s2 [] (segsStr (s3 :: l2''))
            (validSeg_mem_ne_slash s1 hvs1) (validSeg_mem_ne_slash s2 hvs2)]
          constructor
          · rintro ⟨rfl, _⟩
            refine ⟨?_, by simp⟩
            rw [List.cons_prefix_cons]
            exact ⟨rfl, List.nil_prefix⟩
          · rintro ⟨hp, _⟩
            rw [List.cons_prefix_cons] at hp
            exact ⟨hp.1, List.nil_prefix⟩
    | cons s1b l1'' =>
      cases l2 with
      | nil =>
        constructor
        · intro h
          exfalso
          have hx : segsStr (s1 :: s1b :: l1'') ++ ['/'] <+: ([] : Name) := by
            simpa [segsStr] using h
          exact absurd (List.prefix_nil.1 hx) (by simp)
        · rintro ⟨hp, _⟩
          have := hp.length_le
          simp at this
      | cons s2 l2' =>
        have hvs2 : validSeg s2 = true := by
          rw [List.all_cons, Bool.and_eq_true] at hv2; exact hv2.1
        have hv2' : l2'.all validSeg = true := by
          rw [List.all_cons, Bool.and_eq_true] at hv2; exact hv2.2
        cases l2' with
        | nil =>
          constructor
          · intro h
            exfalso
            have hmem : ('/' : Char) ∈ segsStr (s1 :: s1b :: l1'') ++ ['/'] := by simp
            have hsub := h.subset hmem
            have hs2mem : ('/' : Char) ∈ s2 := by simpa [segsStr] using hsub
            exact validSeg_mem_ne_slash s2 hvs2 hs2mem
          · rintro ⟨hp, _⟩
            have := hp.length_le
            simp at this
        | cons s3 l2'' =>
          rw [segsStr_cons s1 (s1b :: l1'') (by simp), segsStr_cons s2 (s3 :: l2'') (by simp)]
          have hre : (s1 ++ '/' :: segsStr (s1b :: l1'')) ++ ['/'] =
              s1 ++ '/' :: (segsStr (s1b :: l1'') ++ ['/']) := by simp
          rw [hre, slashfree_sep_pref s1 s2 (segsStr (s1b :: l1'') ++ ['/'])
            (segsStr (s3 :: l2''))
            (validSeg_mem_ne_slash s1 hvs1) (validSeg_mem_ne_slash s2 hvs2)]
          rw [ih (s3 :: l2'') (by simp) hv1' hv2']
          constructor
          · rintro ⟨rfl, hp, hne⟩
            refine ⟨?_, ?_⟩
            · rw [List.cons_prefix_cons]
              exact ⟨rfl, hp⟩
            · intro hcontra
              injection hcontra with h1 h2
              exact hne h2
          · rintro ⟨hp, hne⟩
            rw [List.cons_prefix_cons] at hp
            refine ⟨hp.1, hp.2, ?_⟩
            intro hcontra
            exact hne (by rw [hp.1, hcontra])

/-- The rendered string of a relative path with segments. -/
theorem pathStr_rel (p : Path) (h : p.absolute = false) (hne : p.segments ≠ []) :
    pathStr p = segsStr p.segments := by
  unfold pathStr
  rw [h]
  simp [List.isEmpty_iff, hne]

/-- The rendered string of the empty relative path is `.`. -/
theorem pathStr_rel_nil (p : Path) (h : p.absolute = false) (hnil : p.segments = []) :
    pathStr p = ['.'] := by
  unfold pathStr
  rw [h, hnil]
  simp

/-- The pattern `./` is never a prefix of the rendering of valid segments:
no valid segment is `.` and none contains a slash. -/
theorem dot_slash_not_sep (l : List Name) (hv : l.all validSeg = true) :
    ¬(['.', '/'] <+: segsStr l) := by
  intro h
  cases l with
  | nil =>
    have hx : ['.', '/'] <+: ([] : Name) := by simpa [segsStr] using h
    exact absurd (List.prefix_nil.1 hx) (by simp)
  | cons s tl =>
    have hs : validSeg s = true := by
      rw [List.all_cons, Bool.and_eq_true] at hv; exact hv.1
    have hdot : s ≠ ['.'] := by
      unfold validSeg at hs
      simp only [Bool.and_eq_true, decide_eq_true_eq] at hs
      exact hs.2
    have hslash := validSeg_mem_ne_slash s hs
    cases s with
    | nil => exact absurd hs (by decide)
    | cons c0 s' =>
      have hx : ['.', '/'] <+: (c0 :: s') ++
          (match tl with | [] => ([] : Name) | _ :: _ => '/' :: segsStr tl) := by
        cases tl with
        | nil => simpa [segsStr] using h
        | cons s2 r =>
          have := segsStr_cons (c0 :: s') (s2 :: r) (by simp)
          rw [this] at h
          simpa using h
      rw [List.cons_append, List.cons_prefix_cons] at hx
      obtain ⟨hc0, hx2⟩ := hx
      cases s' with
      | nil => exact hdot (by rw [← hc0])
      | cons c1 s'' =>
        rw [List.cons_append, List.cons_prefix_cons] at hx2
        have hmem : ('/' : Char) ∈ c0 :: c1 :: s'' := by
          rw [hx2.1]
          exact List.mem_cons_of_mem c0 (List.mem_cons_self c1 s'')
        exact hslash hmem

/-- The full separator-prefix characterization of `str.startswith` on
rendered paths: for valid paths with a non-root source this is exactly the
strictly-under relation. -/
theorem pathStr_sep_pref (src c : Path) (hvs : validPath src = true)
    (hvc : validPath c = true) (hsne : src.segments ≠ []) :
    ((pathStr src ++ ['/']) <+: pathStr c) ↔ strictlyUnder src c := by
  unfold strictlyUnder
  cases hsa : src.absolute <;> cases hca : c.absolute
  · -- relative, relative
    rw [pathStr_rel src hsa hsne]
    cases hcseg : c.segments with
    | nil =>
      rw [pathStr_rel_nil c hca hcseg]
      constructor
      · intro h
        exfalso
        have hlen := h.length_le
        have hp1 : segsStr src.segments ≠ [] := segsStr_ne_nil _ hsne hvs
        rw [List.length_append] at hlen
        cases hx : segsStr src.segments with
        | nil => exact hp1 hx
        | cons y ys => rw [hx] at hlen; simp at hlen
      · rintro ⟨_, hp, _⟩
        exact absurd (List.prefix_nil.1 hp) hsne
    | cons a l =>
      rw [pathStr_rel c hca (by rw [hcseg]; simp)]
      rw [segsStr_sep_pref src.segments c.segments hsne hvs hvc]
      rw [hcseg]
      simp
  · -- relative source, absolute candidate: heads differ
    rw [pathStr_rel src hsa hsne, pathStr_abs c hca]
    constructor
    · intro h
      exfalso
      have hb := IsPrefix_head _ _ h (by simp)
      have hno : (segsStr src.segments ++ ['/']).head? = some '/' := by
        rw [← hb]
        rfl
      cases hx : segsStr src.segments with
      | nil => exact segsStr_ne_nil _ hsne hvs hx
      | cons y ys =>
        rw [hx] at hno
        simp only [List.cons_append, List.head?_cons] at hno
        injection hno with hy
        have hhead := segsStr_head_not_slash src.segments hvs
        rw [hx] at hhead
        exact hhead (by rw [List.head?_cons, hy])
    · rintro ⟨habs2, _⟩
      cases habs2
  · -- absolute source, relative candidate
    rw [pathStr_abs src hsa]
    constructor
    · intro h
      exfalso
      have hb := IsPrefix_head _ _ h (by simp)
      have hhd : (pathStr c).head? = some '/' := by
        rw [hb]
        rfl
      cases hcseg : c.segments with
      | nil =>
        rw [pathStr_rel_nil c hca hcseg] at hhd
        injection hhd with h1
        cases h1
      | cons a l =>
        rw [pathStr_rel c hca (by rw [hcseg]; simp)] at hhd
        exact segsStr_head_not_slash c.segments hvc hhd
    · rintro ⟨habs2, _⟩
      cases habs2
  · -- absolute, absolute
    rw [pathStr_abs src hsa, pathStr_abs c hca]
    have hre : ('/' :: segsStr src.segments) ++ ['/'] =
        '/' :: (segsStr src.segments ++ ['/']) := by simp
    rw [hre, List.cons_prefix_cons]
    cases hcseg : c.segments with
    | nil =>
      constructor
      · rintro ⟨_, hp⟩
        exfalso
        have hx : segsStr src.segments ++ ['/'] <+: ([] : Name) := by
          simpa [segsStr] using hp
        exact absurd (List.prefix_nil.1 hx) (by simp)
      · rintro ⟨_, hp, _⟩
        exact absurd (List.prefix_nil.1 hp) hsne
    | cons a l =>
      rw [show segsStr (a :: l) = segsStr c.segments by rw [hcseg]]
      rw [segsStr_sep_pref src.segments c.segments hsne hvs hvc]
      rw [hcseg]
      simp

/-- The rename loop test, translated: for a non-root valid source it holds
exactly on the source itself and the paths strictly under it. -/
theorem renMatches_iff (src c : Path) (hvs : validPath src = true)
    (hvc : validPath c = true) (hsne : src.segments ≠ []) :
    renMatches src c = true ↔ (c = src ∨ strictlyUnder src c) := by
  unfold renMatches
  rw [Bool.or_eq_true, decide_eq_true_eq, List.isPrefixOf_iff_prefix,
    pathStr_sep_pref src c hvs hvc hsne]

/-- One direction of the translation holds for every valid source, including
the root and the empty relative path (whose patterns `//` and `./` match no
valid rendering at all). -/
theorem renMatches_true_cases (src c : Path) (hvs : validPath src = true)
    (hvc : validPath c = true) :
    renMatches src c = true → (c = src ∨ strictlyUnder src c) := by
  unfold renMatches
  rw [Bool.or_eq_true, decide_eq_true_eq, List.isPrefixOf_iff_prefix]
  rintro (h | h)
  · exact Or.inl h
  · by_cases hsne : src.segments = []
    · exfalso
      cases hsa : src.absolute
      · rw [pathStr_rel_nil src hsa hsne] at h
        have h' : ['.', '/'] <+: pathStr c := by simpa using h
        cases hca : c.absolute
        · cases hcseg : c.segments with
          | nil =>
            rw [pathStr_rel_nil c hca hcseg] at h'
            have := h'.length_le
            simp at this
          | cons a l =>
            rw [pathStr_rel c hca (by rw [hcseg]; simp)] at h'
            exact dot_slash_not_sep c.segments hvc h'
        · rw [pathStr_abs c hca] at h'
          rw [List.cons_prefix_cons] at h'
          exact absurd h'.1 (by decide)
      · rw [pathStr_abs src hsa, hsne] at h
        have h2 : ['/', '/'] <+: pathStr c := by simpa [segsStr] using h
        cases hca : c.absolute
        · cases hcseg : c.segments with
          | nil =>
            rw [pathStr_rel_nil c hca hcseg] at h2
            rw [List.cons_prefix_cons] at h2
            exact absurd h2.1 (by decide)
          | cons a l =>
            rw [pathStr_rel c hca (by rw [hcseg]; simp)] at h2
            have hns := segsStr_head_not_slash c.segments hvc
            have hhd := IsPrefix_head _ _ h2 (by simp)
            exact hns (by rw [hhd]; rfl)
        · rw [pathStr_abs c hca] at h2
          rw [List.cons_prefix_cons] at h2
          obtain ⟨_, h3⟩ := h2
          cases hcseg : c.segments with
          | nil =>
            rw [hcseg] at h3
            have hx : ['/'] <+: ([] : Name) := by simpa [segsStr] using h3
            exact absurd (List.prefix_nil.1 hx) (by simp)
          | cons a l =>
            have hns := segsStr_head_not_slash c.segments hvc
            have hhd := IsPrefix_head _ _ h3 (by simp)
            exact hns (by rw [hhd]; rfl)
    · exact Or.inr ((pathStr_sep_pref src c hvs hvc hsne).1 h)

/-- Renaming the path itself: the image is exactly the new path
(`new_path / ""` is `new_path`). -/
theorem renImage_self (src dst : Path) : renImage src dst src = dst := by
  unfold renImage strJoin
  have hd : (pathStr src).drop ((pathStr src).length + 1) = [] :=
    List.drop_eq_nil_of_le (by omega)
  rw [hd]
  rw [if_neg (by simp)]
  show Path.mk dst.absolute (dst.segments ++ splitSegs []) = dst
  have hsp : splitSegs [] = [] := rfl
  rw [hsp, List.append_nil]

/-- Renaming a strict descendant: the image is the new path extended with
the segments of the candidate relative to the source. -/
theorem renImage_under (src dst c : Path) (hvs : validPath src = true)
    (hvc : validPath c = true) (hsne : src.segments ≠ [])
    (hu : strictlyUnder src c) :
    renImage src dst c =
      ⟨dst.absolute, dst.segments ++ c.segments.drop src.segments.length⟩ := by
  obtain ⟨habs, hpre, hneq⟩ := hu
  obtain ⟨rest, hrest⟩ := hpre
  have hrne : rest ≠ [] := by
    intro h
    rw [h, List.append_nil] at hrest
    exact hneq hrest
  have hcne : c.segments ≠ [] := by
    rw [← hrest]
    intro h
    exact hsne (List.append_eq_nil.1 h).1
  have hvr : rest.all validSeg = true := by
    unfold validPath at hvc
    rw [← hrest, List.all_append, Bool.and_eq_true] at hvc
    exact hvc.2
  have hps : pathStr c = pathStr src ++ '/' :: segsStr rest := by
    cases hsa : src.absolute
    · rw [pathStr_rel src hsa hsne, pathStr_rel c (habs ▸ hsa) hcne, ← hrest,
        segsStr_append src.segments rest hsne hrne]
    · rw [pathStr_abs src hsa, pathStr_abs c (habs ▸ hsa), ← hrest,
        segsStr_append src.segments rest hsne hrne]
      simp
  unfold renImage
  rw [hps]
  have hlen : (pathStr src ++ '/' :: segsStr rest).drop ((pathStr src).length + 1) =
      segsStr rest := by
    have hsplit : pathStr src ++ '/' :: segsStr rest =
        (pathStr src ++ ['/']) ++ segsStr rest := by simp
    rw [hsplit]
    have hl2 : (pathStr src).length + 1 = (pathStr src ++ ['/']).length := by simp
    rw [hl2, List.drop_left]
  rw [hlen]
  unfold strJoin
  rw [if_neg (segsStr_head_not_slash rest hvr)]
  rw [splitSegs_segsStr rest hvr]
  congr 1
  rw [← hrest, List.drop_left]

/-- Elements that do not match survive the rename loop. -/
theorem renameLoop_keeps (src dst : Path) (order : List Path) :
    ∀ (fs : Finset Path) (x : Path), x ∈ fs → renMatches src x = false →
      x ∈ renameLoop src dst order fs := by
  induction order with
  | nil => intro fs x hx _; exact hx
  | cons c rest ih =>
    intro fs x hx hnm
    rw [renameLoop]
    apply ih _ _ _ hnm
    unfold renameStep
    by_cases hc : renMatches src c = true
    · rw [if_pos hc]
      apply Finset.mem_insert_of_mem
      rw [Finset.mem_erase]
      refine ⟨?_, hx⟩
      intro hxc
      rw [hxc, hc] at hnm
      cases hnm
    · rw [if_neg hc]
      exact hx

/-- If nothing in the snapshot matches, the rename loop is the identity. -/
theorem renameLoop_noop (src dst : Path) (order : List Path) :
    ∀ (fs : Finset Path), (∀ c ∈ order, renMatches src c = false) →
      renameLoop src dst order fs = fs := by
  induction order with
  | nil => intro fs _; rfl
  | cons c rest ih =>
    intro fs hall
    rw [renameLoop]
    unfold renameStep
    rw [if_neg (by rw [hall c (List.mem_cons_self c rest)]; exact Bool.false_ne_true)]
    exact ih fs (fun d hd => hall d (List.mem_cons_of_mem c hd))

/-- Membership after the rename loop, provided the image of a matching
candidate never matches again: the matching snapshot elements are gone,
their images are present, everything else is untouched. -/
theorem renameLoop_mem (src dst : Path) (order : List Path) :
    ∀ (fs : Finset Path),
      (∀ c ∈ order, renMatches src c = true →
        renMatches src (renImage src dst c) = false) →
      ∀ x, x ∈ renameLoop src dst order fs ↔
        ((x ∈ fs ∧ ¬(renMatches src x = true ∧ x ∈ order)) ∨
         (∃ c ∈ order, renMatches src c = true ∧ x = renImage src dst c)) := by
  induction order with
  | nil =>
    intro fs _ x
    simp [renameLoop]
  | cons c rest ih =>
    intro fs hK x
    rw [renameLoop]
    rw [ih (renameStep src dst fs c) (fun d hd hdm => hK d (List.mem_cons_of_mem c hd) hdm) x]
    unfold renameStep
    by_cases hc : renMatches src c = true
    · rw [if_pos hc]
      have hcim : renMatches src (renImage src dst c) = false :=
        hK c (List.mem_cons_self c rest) hc
      simp only [Finset.mem_insert, Finset.mem_erase, List.mem_cons]
      constructor
      · rintro (⟨him | ⟨hxc, hxfs⟩, hnm⟩ | ⟨d, hd, hdm, hxd⟩)
        · exact Or.inr ⟨c, Or.inl rfl, hc, him⟩
        · refine Or.inl ⟨hxfs, ?_⟩
          rintro ⟨hm, hmem⟩
          rcases hmem with hxc2 | hr
          · exact hxc hxc2
          · exact hnm ⟨hm, hr⟩
        · exact Or.inr ⟨d, Or.inr hd, hdm, hxd⟩
      · rintro (⟨hxfs, hnm⟩ | ⟨d, hd, hdm, hxd⟩)
        · refine Or.inl ⟨Or.inr ⟨?_, hxfs⟩, ?_⟩
          · intro hxc
            apply hnm
            refine ⟨?_, Or.inl hxc⟩
            rw [hxc]
            exact hc
          · rintro ⟨hm, hr⟩
            exact hnm ⟨hm, Or.inr hr⟩
        · rcases hd with rfl | hdr
          · refine Or.inl ⟨Or.inl hxd, ?_⟩
            rintro ⟨hm, _⟩
            rw [hxd, hcim] at hm
            cases hm
          · exact Or.inr ⟨d, hdr, hdm, hxd⟩
    · rw [if_neg hc]
      simp only [List.mem_cons]
      constructor
      · rintro (⟨hxfs, hnm⟩ | ⟨d, hd, hdm, hxd⟩)
        · refine Or.inl ⟨hxfs, ?_⟩
          rintro ⟨hm, hmem⟩
          rcases hmem with hxc | hr
          · rw [hxc] at hm
            exact hc hm
          · exact hnm ⟨hm, hr⟩
        · exact Or.inr ⟨d, Or.inr hd, hdm, hxd⟩
      · rintro (⟨hxfs, hnm⟩ | ⟨d, hd, hdm, hxd⟩)
        · refine Or.inl ⟨hxfs, ?_⟩
          rintro ⟨hm, hr⟩
          exact hnm ⟨hm, Or.inr hr⟩
        · rcases hd with rfl | hdr
          · exact absurd hdm hc
          · exact Or.inr ⟨d, hdr, hdm, hxd⟩

/-- A path always matches itself in the rename loop. -/
theorem renMatches_self (src : Path) : renMatches src src = true := by
  unfold renMatches
  simp

/-- Nonempty lists are not `isEmpty`. -/
theorem isEmpty_false_of_ne (l : List Name) (h : l ≠ []) : ¬(l.isEmpty = true) := by
  simpa [List.isEmpty_iff] using h

/-- Under the rename preconditions (source and destination are distinct
siblings with names), the image of a matching candidate never matches the
source pattern again. -/
theorem renMatches_image_false (src dst c : Path)
    (hvc : validPath c = true) (hvs : validPath src = true) (hvd : validPath dst = true)
    (hsne : src.segments ≠ []) (hdne : dst.segments ≠ [])
    (hneq : src ≠ dst) (hsib : Path.parent src = Path.parent dst)
    (hm : renMatches src c = true) :
    renMatches src (renImage src dst c) = false := by
  have hpar : src.absolute = dst.absolute ∧
      src.segments.dropLast = dst.segments.dropLast := by
    unfold Path.parent at hsib
    rw [if_neg (isEmpty_false_of_ne _ hsne), if_neg (isEmpty_false_of_ne _ hdne)] at hsib
    injection hsib with h1 h2
    exact ⟨h1, h2⟩
  have hlen : src.segments.length = dst.segments.length := by
    have h1 : src.segments.dropLast.length = dst.segments.dropLast.length := by
      rw [hpar.2]
    rw [List.length_dropLast, List.length_dropLast] at h1
    have hs1 : src.segments.length ≠ 0 := fun h => hsne (List.eq_nil_of_length_eq_zero h)
    have hd1 : dst.segments.length ≠ 0 := fun h => hdne (List.eq_nil_of_length_eq_zero h)
    omega
  rcases (renMatches_iff src c hvs hvc hsne).1 hm with heqc | hu
  · rw [heqc, renImage_self]
    cases hmm : renMatches src dst with
    | false => rfl
    | true =>
      exfalso
      rcases (renMatches_iff src dst hvs hvd hsne).1 hmm with heq | ⟨_, hpre, hneq2⟩
      · exact hneq heq.symm
      · exact hneq2 (hpre.eq_of_length hlen)
  · rw [renImage_under src dst c hvs hvc hsne hu]
    have hrest_valid : (c.segments.drop src.segments.length).all validSeg = true := by
      unfold validPath at hvc
      apply List.all_eq_true.2
      intro x hx
      exact List.all_eq_true.1 hvc x (List.mem_of_mem_drop hx)
    have hvq : validPath (⟨dst.absolute,
        dst.segments ++ c.segments.drop src.segments.length⟩ : Path) = true := by
      unfold validPath at hvd ⊢
      rw [List.all_append, Bool.and_eq_true]
      exact ⟨hvd, hrest_valid⟩
    have hlt : src.segments.length < c.segments.length := by
      obtain ⟨_, hpre, hneq2⟩ := hu
      obtain ⟨t, ht⟩ := hpre
      have htne : t ≠ [] := by
        intro h
        rw [h, List.append_nil] at ht
        exact hneq2 ht
      have hlt2 := congrArg List.length ht
      rw [List.length_append] at hlt2
      cases t with
      | nil => cases htne rfl
      | cons a b =>
        rw [← hlt2]
        simp
    have hrest_ne : c.segments.drop src.segments.length ≠ [] := by
      intro h
      have h2 := congrArg List.length h
      rw [List.length_drop] at h2
      simp at h2
      omega
    cases hmm : renMatches src
        (⟨dst.absolute, dst.segments ++ c.segments.drop src.segments.length⟩ : Path) with
    | false => rfl
    | true =>
      exfalso
      rcases (renMatches_iff src _ hvs hvq hsne).1 hmm with heq | ⟨_, hpre2, _⟩
      · have h2 : dst.segments.length + (c.segments.drop src.segments.length).length =
            src.segments.length := by
          have h2a := congrArg (fun q : Path => q.segments.length) heq
          simpa using h2a
        have h4 : (c.segments.drop src.segments.length).length ≠ 0 := fun h0 =>
          hrest_ne (List.eq_nil_of_length_eq_zero h0)
        omega
      · have hpre2a : src.segments <+:
            dst.segments ++ c.segments.drop src.segments.length := hpre2
        have htake := List.prefix_iff_eq_take.1 hpre2a
        rw [hlen, List.take_left] at htake
        have hsd : src = dst := by
          have e1 : src = Path.mk src.absolute src.segments := rfl
          have e2 : dst = Path.mk dst.absolute dst.segments := rfl
          rw [e1, e2, hpar.1, htake]
        exact hneq hsd

/-- `with_name` keeps the parent of a path with a name. -/
theorem with_name_parent (p : Path) (n : Name) (hne : p.segments ≠ []) :
    Path.parent (with_name p n) = Path.parent p := by
  unfold with_name Path.parent
  simp only []
  rw [if_neg (by simp), if_neg (by simpa [List.isEmpty_iff] using hne)]
  congr 1
  simp

/-! ## The SecureClauses planner, modelled from the spec

The planner source file (`secure_clauses.py`) is not under `src/`; only its
call site in `suprenam.py` is.  The definitions in this section are
therefore modelled from the spec (§4.1–§4.2). -/

/-- Modelled from the spec: a Clause, "a pair `(source_path, new_name)`"
(§3); the planner source file is missing from the repository sources. -/
structure Clause where
  source : Path
  newName : Name
deriving DecidableEq, Repr

/-- Modelled from the spec: a clause's target, `source.parent / new_name`
(§4.2 step 2). -/
def Clause.target (c : Clause) : Path :=
  with_name c.source c.newName

/-- `q` is the renamed path itself or lies strictly under it: the region an
`apply_rename` moves. -/
def underEq (s q : Path) : Prop :=
  q = s ∨ strictlyUnder s q

instance (s q : Path) : Decidable (underEq s q) := by
  unfold underEq
  infer_instance

/-- Where one `apply_rename(s, d)` sends an individual path. -/
def moveTo (s d q : Path) : Path :=
  if q = s then d
  else if strictlyUnder s q then ⟨d.absolute, d.segments ++ q.segments.drop s.segments.length⟩
  else q

/-- Modelled from the spec: `apply_rename(src, dst)` (§4.1) — removes `src`,
inserts `dst`, and, for every `c` strictly under `src`, removes `c` and
inserts `dst / c.relative_to(src)`; every other member is kept. -/
def applyRename (fs : Finset Path) (s d : Path) : Finset Path :=
  fs.image (moveTo s d)

/-- Where an arc sequence, applied in order via `apply_rename`, sends an
object initially at `p` (the "source inode resides at" relation of the
spec's planner-soundness property). -/
def track (arcs : List (Path × Path)) (p : Path) : Path :=
  arcs.foldl (fun q a => moveTo a.1 a.2 q) p

/-- Modelled from the spec: the planner's error kinds (§4.2, §7).  `stuck`
is the fuel-exhaustion artifact of the model; the fuel passed by
`secure_clauses` suffices for every input the spec's algorithm handles. -/
inductive PlanError where
  | sourceMissing : Path → PlanError
  | duplicateTarget : PlanError
  | targetCollision : PlanError
  | stuck : PlanError
deriving DecidableEq, Repr

/-- Modelled from the spec: the planner's resolution loop (§4.2 steps 3–4).
A clause whose target is free is emitted directly and applied to the VFS;
when no target is free and every pending target is some pending clause's
source (pure cycles), the first clause's source is renamed to a fresh
sibling and the clause is re-pointed at the temporary; otherwise some target
is occupied by a non-clause path and the planner fails with
`TargetCollision`. -/
def resolveLoop (digestFn : Name → Name) :
    Nat → Finset Path → List Clause → List (Path × Path) →
      Except PlanError (List (Path × Path))
  | _, _, [], acc => .ok acc
  | 0, _, _ :: _, _ => .error .stuck
  | fuel + 1, fs, c0 :: tl, acc =>
    match (c0 :: tl).find? (fun c => decide (Clause.target c ∉ fs)) with
    | some c =>
      resolveLoop digestFn fuel (applyRename fs c.source (Clause.target c))
        ((c0 :: tl).erase c) (acc ++ [(c.source, Clause.target c)])
    | none =>
      if (c0 :: tl).all
          (fun c => ((c0 :: tl).map Clause.source).contains (Clause.target c)) then
        resolveLoop digestFn fuel
          (applyRename fs c0.source (non_existing_sibling digestFn fs c0.source))
          (⟨non_existing_sibling digestFn fs c0.source, c0.newName⟩ :: tl)
          (acc ++ [(c0.source, non_existing_sibling digestFn fs c0.source)])
      else .error .targetCollision

/-- Modelled from the spec: `secure_clauses` (§4.2) — close over the VFS
(step 1: every clause source must exist), reject duplicate targets
(step 2), then run the resolution loop (steps 3–5) with enough fuel for
every clause to be emitted, cycles included. -/
def secure_clauses (digestFn : Name → Name) (fs : Finset Path) (clauses : List Clause) :
    Except PlanError (List (Path × Path)) :=
  match clauses.find? (fun c => decide (c.source ∉ fs)) with
  | some c => .error (.sourceMissing c.source)
  | none =>
    if (clauses.map Clause.target).Nodup then
      resolveLoop digestFn (2 * clauses.length + 1) fs clauses []
    else .error .duplicateTarget

/-- The pairwise relation required between pending clauses: neither source
lies on or under the other (the spec's "at most one clause per inode" plus
the §9 exclusion of a clause source inside another clause's renamed
directory). -/
def noNest (c d : Clause) : Prop :=
  ¬underEq c.source d.source ∧ ¬underEq d.source c.source

instance (c d : Clause) : Decidable (noNest c d) := by
  unfold noNest
  infer_instance

/-- Ancestor-closure of the VFS, in decidable form: every proper nonempty
prefix of a member's segments is itself a member.  This reflects the spec's
close-over invariant that the VFS knows the real siblings (hence the
containing directories) of everything it reasons about. -/
def ancClosed (fs : Finset Path) : Prop :=
  ∀ q ∈ fs, ∀ k, 0 < k → k < q.segments.length →
    (⟨q.absolute, q.segments.take k⟩ : Path) ∈ fs

instance (fs : Finset Path) : Decidable (ancClosed fs) :=
  decidable_of_iff
    (∀ q ∈ fs, ∀ k < q.segments.length, 0 < k →
      (⟨q.absolute, q.segments.take k⟩ : Path) ∈ fs)
    (by
      constructor
      · intro h q hq k hk0 hklen
        exact h q hq k hklen hk0
      · intro h q hq k hklen hk0
        exact h q hq k hk0 hklen)

/-- The ancestor form of the closure property. -/
def ancClosedA (fs : Finset Path) : Prop :=
  ∀ q ∈ fs, ∀ a : Path, strictlyUnder a q → a.segments ≠ [] → a ∈ fs

/-- The planner-loop invariant: pending sources are present, non-nested,
non-root, and the VFS is ancestor-closed. -/
def planInv (fs : Finset Path) (pending : List Clause) : Prop :=
  (∀ c ∈ pending, c.source ∈ fs) ∧
  pending.Pairwise noNest ∧
  ancClosedA fs ∧
  (∀ c ∈ pending, c.source.segments ≠ [])

/-! ## Lemmas about the planner model -/

/-- Two paths agreeing on both fields are equal. -/
theorem Path.ext2 (p q : Path) (h1 : p.absolute = q.absolute)
    (h2 : p.segments = q.segments) : p = q := by
  cases p
  cases q
  simp only at h1 h2
  rw [h1, h2]

theorem underEq_refl (s : Path) : underEq s s := Or.inl rfl

theorem strictlyUnder_trans (s a x : Path) (h1 : strictlyUnder s a)
    (h2 : strictlyUnder a x) : strictlyUnder s x := by
  obtain ⟨e1, p1, n1⟩ := h1
  obtain ⟨e2, p2, n2⟩ := h2
  refine ⟨e1.trans e2, p1.trans p2, ?_⟩
  intro heq
  have l1 := p1.length_le
  have l2 := p2.length_le
  have : s.segments.length = x.segments.length := by rw [heq]
  have : a.segments = x.segments := p2.eq_of_length (by omega)
  exact n2 this

theorem moveTo_nomove (s d q : Path) (h : ¬underEq s q) : moveTo s d q = q := by
  unfold moveTo
  rw [if_neg (fun he => h (Or.inl he)), if_neg (fun hu => h (Or.inr hu))]

theorem moveTo_self (s d : Path) : moveTo s d s = d := by
  unfold moveTo
  rw [if_pos rfl]

theorem moveTo_under (s d q : Path) (h : strictlyUnder s q) :
    moveTo s d q = ⟨d.absolute, d.segments ++ q.segments.drop s.segments.length⟩ := by
  unfold moveTo
  have hne : ¬(q = s) := by
    intro he
    exact h.2.2 (by rw [he])
  rw [if_neg hne, if_pos h]

theorem mem_applyRename (fs : Finset Path) (s d x : Path) :
    x ∈ applyRename fs s d ↔ ∃ y ∈ fs, moveTo s d y = x := by
  unfold applyRename
  exact Finset.mem_image

theorem track_cons (a : Path × Path) (arcs : List (Path × Path)) (p : Path) :
    track (a :: arcs) p = track arcs (moveTo a.1 a.2 p) := rfl

/-- A proper prefix of `l ++ [x]` is a prefix of `l`. -/
theorem prefix_concat_le (l1 : List Name) (x : Name) (p : List Name)
    (hp : p <+: l1 ++ [x]) (hne : p ≠ l1 ++ [x]) : p <+: l1 := by
  have hle : p.length ≤ l1.length := by
    by_contra hgt
    push_neg at hgt
    have h1 := hp.length_le
    rw [List.length_append, List.length_singleton] at h1
    have hplen : p.length = l1.length + 1 := by omega
    exact hne (hp.eq_of_length
      (by rw [List.length_append, List.length_singleton, hplen]))
  have htake := List.prefix_iff_eq_take.1 hp
  rw [List.take_append_eq_append_take] at htake
  have h0 : p.length - l1.length = 0 := by omega
  rw [h0] at htake
  simp only [List.take_zero, List.append_nil] at htake
  rw [htake]
  exact List.take_prefix _ _

/-- A strict ancestor of `with_name p n` is a strict ancestor of `p`. -/
theorem ancestor_with_name (a p : Path) (n : Name) (hpne : p.segments ≠ [])
    (h : strictlyUnder a (with_name p n)) : strictlyUnder a p := by
  obtain ⟨he, hpre, hneq⟩ := h
  have hpre2 : a.segments <+: p.segments.dropLast :=
    prefix_concat_le _ _ _ hpre hneq
  refine ⟨he, hpre2.trans (List.dropLast_prefix p.segments), ?_⟩
  intro heq
  have h1 := hpre2.length_le
  rw [List.length_dropLast] at h1
  have h2 : p.segments.length ≠ 0 := fun h0 => hpne (List.eq_nil_of_length_eq_zero h0)
  have h3 := congrArg List.length heq
  omega

theorem with_name_with_name (p : Path) (n1 n2 : Name) :
    with_name (with_name p n1) n2 = with_name p n2 := by
  unfold with_name
  simp

theorem with_name_segments_ne (p : Path) (n : Name) : (with_name p n).segments ≠ [] := by
  unfold with_name
  simp

theorem with_name_absolute (p : Path) (n : Name) : (with_name p n).absolute = p.absolute := rfl

theorem with_name_dropLast (p : Path) (n : Name) :
    (with_name p n).segments.dropLast = p.segments.dropLast := by
  unfold with_name
  simp

theorem ancClosed_iff (fs : Finset Path) : ancClosed fs ↔ ancClosedA fs := by
  constructor
  · intro h q hq a ha hane
    obtain ⟨he, hpre, hneq⟩ := ha
    have hlt : a.segments.length < q.segments.length := by
      rcases Nat.lt_or_ge a.segments.length q.segments.length with h2 | h2
      · exact h2
      · exact absurd (hpre.eq_of_length (Nat.le_antisymm hpre.length_le h2)) hneq
    have hpos : 0 < a.segments.length := by
      cases hseg : a.segments with
      | nil => cases hane hseg
      | cons u v => simp
    have := h q hq a.segments.length hpos hlt
    have htake := List.prefix_iff_eq_take.1 hpre
    have heq2 : a = ⟨q.absolute, q.segments.take a.segments.length⟩ :=
      Path.ext2 _ _ he (by rw [← htake])
    rw [← heq2] at this
    exact this
  · intro h q hq k hk hklen
    refine h q hq ⟨q.absolute, q.segments.take k⟩ ⟨rfl, List.take_prefix _ _, ?_⟩ ?_
    · intro heq
      have h8 := congrArg List.length heq
      rw [List.length_take] at h8
      omega
    · intro heq
      have h8 := congrArg List.length heq
      rw [List.length_take] at h8
      simp only [List.length_nil] at h8
      omega

/-- `apply_rename` with a sibling destination preserves ancestor-closure. -/
theorem ancClosedA_applyRename (fs : Finset Path) (s d : Path)
    (hanc : ancClosedA fs) (hs : s ∈ fs) (hsne : s.segments ≠ []) (hdne : d.segments ≠ [])
    (habs : s.absolute = d.absolute) (hsib : s.segments.dropLast = d.segments.dropLast) :
    ancClosedA (applyRename fs s d) := by
  intro y hy a hay hane
  rw [mem_applyRename] at hy ⊢
  obtain ⟨x, hx, hmx⟩ := hy
  have hds : d.segments = d.segments.dropLast ++ [d.segments.getLast hdne] :=
    (List.dropLast_append_getLast hdne).symm
  have hslen : s.segments.length ≠ 0 := fun h0 => hsne (List.eq_nil_of_length_eq_zero h0)
  by_cases hux : underEq s x
  · rcases hux with heq | hund
    · -- x = s, so y = d: strict ancestors of d are strict ancestors of s
      rw [heq, moveTo_self] at hmx
      have hstrict : strictlyUnder a s := by
        have hwn : with_name s (d.segments.getLast hdne) = y := by
          apply Path.ext2
          · rw [with_name_absolute, habs, ← hmx]
          · show s.segments.dropLast ++ [d.segments.getLast hdne] = y.segments
            rw [hsib, ← hds, hmx]
        exact ancestor_with_name a s _ hsne (hwn ▸ hay)
      have hafs : a ∈ fs := hanc s hs a hstrict hane
      refine ⟨a, hafs, moveTo_nomove _ _ _ ?_⟩
      rintro (haeq | hau)
      · rw [haeq] at hstrict
        exact hstrict.2.2 rfl
      · have heq3 := hau.2.1.eq_of_length
          (Nat.le_antisymm hau.2.1.length_le hstrict.2.1.length_le)
        exact hstrict.2.2 heq3.symm
    · -- x strictly under s: y = d ++ (x relative to s)
      have hrne : x.segments.drop s.segments.length ≠ [] := by
        obtain ⟨_, hpre, hneq⟩ := hund
        intro h0
        have h1 := congrArg List.length h0
        rw [List.length_drop] at h1
        have l1 := hpre.length_le
        have hll : s.segments.length = x.segments.length := by
          simp only [List.length_nil] at h1
          omega
        exact hneq (hpre.eq_of_length hll)
      rw [moveTo_under s d x hund] at hmx
      have hyabs : y.absolute = d.absolute := by rw [← hmx]
      have hyseg : y.segments = d.segments ++ x.segments.drop s.segments.length := by
        rw [← hmx]
      by_cases hlen : a.segments.length ≤ d.segments.length
      · by_cases haeq : a.segments = d.segments
        · -- a = d: the destination itself, which is the image of s
          have had : a = d := Path.ext2 a d (hay.1.trans hyabs) haeq
          exact ⟨s, hs, by rw [moveTo_self, had]⟩
        · -- a is a strict ancestor of d, hence of s, hence unmoved and in fs
          have hpred : a.segments <+: d.segments := by
            have htake := List.prefix_iff_eq_take.1 hay.2.1
            rw [hyseg, List.take_append_eq_append_take] at htake
            have h0 : a.segments.length - d.segments.length = 0 := by omega
            rw [h0] at htake
            simp only [List.take_zero, List.append_nil] at htake
            rw [htake]
            exact List.take_prefix _ _
          have hpred2 : a.segments <+: s.segments.dropLast := by
            rw [hsib]
            apply prefix_concat_le d.segments.dropLast (d.segments.getLast hdne)
            · rw [← hds]
              exact hpred
            · rw [← hds]
              exact haeq
          have hsts : strictlyUnder a s := by
            refine ⟨hay.1.trans (hyabs.trans habs.symm),
              hpred2.trans (List.dropLast_prefix s.segments), ?_⟩
            intro heq6
            have l1 := hpred2.length_le
            rw [List.length_dropLast] at l1
            have l2 := congrArg List.length heq6
            omega
          have hafs : a ∈ fs := hanc s hs a hsts hane
          refine ⟨a, hafs, moveTo_nomove _ _ _ ?_⟩
          rintro (haeq2 | hau)
          · rw [haeq2] at hsts
            exact hsts.2.2 rfl
          · have heq3 := hau.2.1.eq_of_length
              (Nat.le_antisymm hau.2.1.length_le hsts.2.1.length_le)
            exact hsts.2.2 heq3.symm
      · -- a properly extends d: pull it back to an ancestor of x
        have htake := List.prefix_iff_eq_take.1 hay.2.1
        rw [hyseg, List.take_append_eq_append_take,
          List.take_of_length_le (by omega)] at htake
        have hr2pre : (x.segments.drop s.segments.length).take
            (a.segments.length - d.segments.length) <+:
            x.segments.drop s.segments.length := List.take_prefix _ _
        have hr2ne : (x.segments.drop s.segments.length).take
            (a.segments.length - d.segments.length) ≠ [] := by
          intro h0
          rw [h0, List.append_nil] at htake
          have := congrArg List.length htake
          omega
        have hxseg : x.segments = s.segments ++ x.segments.drop s.segments.length := by
          obtain ⟨_, hpre, _⟩ := hund
          have hpre2 := List.prefix_iff_eq_take.1 hpre
          conv_lhs => rw [← List.take_append_drop s.segments.length x.segments]
          rw [← hpre2]
        have hayne : a.segments ≠ y.segments := hay.2.2
        have hx'mem : (⟨x.absolute, s.segments ++
            (x.segments.drop s.segments.length).take
              (a.segments.length - d.segments.length)⟩ : Path) ∈ fs := by
          apply hanc x hx
          · refine ⟨rfl, ?_, ?_⟩
            · obtain ⟨t, ht⟩ := hr2pre
              refine ⟨t, ?_⟩
              show (s.segments ++ _) ++ t = x.segments
              rw [List.append_assoc, ht]
              exact hxseg.symm
            · intro heq4
              have hcancel : (x.segments.drop s.segments.length).take
                  (a.segments.length - d.segments.length) =
                  x.segments.drop s.segments.length :=
                List.append_cancel_left (heq4.trans hxseg)
              apply hayne
              rw [htake, hcancel, hyseg]
          · intro h9
            have h10 := congrArg List.length h9
            rw [List.length_append] at h10
            simp only [List.length_nil] at h10
            exact hslen (by omega)
        refine ⟨_, hx'mem, ?_⟩
        have hx'under : strictlyUnder s ⟨x.absolute, s.segments ++
            (x.segments.drop s.segments.length).take
              (a.segments.length - d.segments.length)⟩ := by
          refine ⟨hund.1, ⟨_, rfl⟩, ?_⟩
          intro heq5
          have h6 := congrArg List.length heq5
          rw [List.length_append] at h6
          have h7 : ((x.segments.drop s.segments.length).take
              (a.segments.length - d.segments.length)).length = 0 := by omega
          exact hr2ne (List.eq_nil_of_length_eq_zero h7)
        rw [moveTo_under s d _ hx'under]
        apply Path.ext2
        · show d.absolute = a.absolute
          exact (hay.1.trans hyabs).symm
        · show d.segments ++ (s.segments ++ _).drop s.segments.length = a.segments
          rw [List.drop_left]
          exact htake.symm
  · -- x untouched: its ancestors are untouched members
    rw [moveTo_nomove _ _ _ hux] at hmx
    rw [← hmx] at hay
    have hafs : a ∈ fs := hanc x hx a hay hane
    refine ⟨a, hafs, moveTo_nomove _ _ _ ?_⟩
    rintro (haeq | hau)
    · rw [haeq] at hay
      exact hux (Or.inr hay)
    · exact hux (Or.inr (strictlyUnder_trans s a x hau hay))

/-- The non-nesting relation is symmetric. -/
theorem noNest_symm : Symmetric noNest := fun _ _ h => ⟨h.2, h.1⟩

/-- Pairwise non-nested clause lists have no duplicates. -/
theorem pairwise_noNest_nodup (l : List Clause) (h : l.Pairwise noNest) : l.Nodup :=
  List.Pairwise.imp (fun hab heq => hab.1 (Or.inl (by rw [heq]))) h

/-- An unaffected member survives `apply_rename`. -/
theorem applyRename_keeps (fs : Finset Path) (s d q : Path)
    (hq : q ∈ fs) (hnu : ¬underEq s q) : q ∈ applyRename fs s d :=
  (mem_applyRename fs s d q).2 ⟨q, hq, moveTo_nomove _ _ _ hnu⟩

/-- The source lands on the destination under `apply_rename`. -/
theorem applyRename_maps_src (fs : Finset Path) (s d : Path) (hs : s ∈ fs) :
    d ∈ applyRename fs s d :=
  (mem_applyRename fs s d d).2 ⟨s, hs, moveTo_self s d⟩

/-- A path absent from an ancestor-closed set neither equals nor strictly
contains any member. -/
theorem not_underEq_of_not_mem (fs : Finset Path) (t q : Path) (hanc : ancClosedA fs)
    (hq : q ∈ fs) (ht : t ∉ fs) (htne : t.segments ≠ []) : ¬underEq t q := by
  rintro (heq | hu)
  · exact ht (heq ▸ hq)
  · exact ht (hanc q hq t hu htne)

/-- A member that neither equals nor contains `s'` neither equals nor
contains a fresh sibling-replacement `with_name s' n` of `s'`. -/
theorem not_underEq_with_name (fs : Finset Path) (s' p : Path) (n : Name)
    (hsne : s'.segments ≠ []) (hwn : with_name s' n ∉ fs) (hp : p ∈ fs)
    (hnn : ¬underEq p s') : ¬underEq p (with_name s' n) := by
  rintro (heq | hu)
  · exact hwn (heq ▸ hp)
  · exact hnn (Or.inr (ancestor_with_name p s' n hsne hu))

/-- `non_existing_sibling` replaces only the name, hence is a `with_name`. -/
theorem non_existing_sibling_with_name (digestFn : Name → Name) (fs : Finset Path)
    (p : Path) : ∃ n : Name, non_existing_sibling digestFn fs p = with_name p n :=
  ⟨_, rfl⟩

/-- The fresh sibling is absent from the set. -/
theorem non_existing_sibling_not_mem (digestFn : Name → Name) (fs : Finset Path)
    (p : Path) : non_existing_sibling digestFn fs p ∉ fs :=
  Nat.find_spec (freshIndexExists digestFn fs p)

theorem Clause.target_def (c : Clause) :
    Clause.target c = with_name c.source c.newName := rfl

/-- Soundness of the resolution loop: on success, the emitted arc suffix
realizes every pending clause's intent, and leaves every present path that
is not on or under a pending source untouched. -/
theorem resolveLoop_sound (digestFn : Name → Name) :
    ∀ (fuel : Nat) (fs : Finset Path) (pending : List Clause) (acc arcs : List (Path × Path)),
      planInv fs pending →
      resolveLoop digestFn fuel fs pending acc = .ok arcs →
      ∃ rest, arcs = acc ++ rest ∧
        (∀ c ∈ pending, track rest c.source = Clause.target c) ∧
        (∀ q, q ∈ fs → (∀ c ∈ pending, ¬underEq c.source q) → track rest q = q) := by
  intro fuel
  induction fuel with
  | zero =>
    intro fs pending acc arcs _ hok
    cases pending with
    | nil =>
      rw [resolveLoop] at hok
      injection hok with h
      exact ⟨[], by rw [← h, List.append_nil], by simp, fun q _ _ => rfl⟩
    | cons c0 tl =>
      rw [resolveLoop] at hok
      cases hok
  | succ fuel ih =>
    intro fs pending acc arcs hInv hok
    cases pending with
    | nil =>
      rw [resolveLoop] at hok
      injection hok with h
      exact ⟨[], by rw [← h, List.append_nil], by simp, fun q _ _ => rfl⟩
    | cons c0 tl =>
      obtain ⟨hA1, hA2, hA3, hA4⟩ := hInv
      rw [resolveLoop] at hok
      cases hfind : (c0 :: tl).find? (fun c => decide (Clause.target c ∉ fs)) with
      | some c =>
        rw [hfind] at hok
        have hcmem : c ∈ c0 :: tl := List.mem_of_find?_eq_some hfind
        have hps := List.find?_some hfind
        have hcfree : Clause.target c ∉ fs := of_decide_eq_true hps
        have hnodup : (c0 :: tl).Nodup := pairwise_noNest_nodup _ hA2
        have hpairs := hA2.forall noNest_symm
        have hcs_mem : c.source ∈ fs := hA1 c hcmem
        have hcs_ne : c.source.segments ≠ [] := hA4 c hcmem
        have herase_mem : ∀ d, d ∈ (c0 :: tl).erase c → d ∈ c0 :: tl ∧ d ≠ c := by
          intro d hd
          have h1 := (List.Nodup.mem_erase_iff hnodup).1 hd
          exact ⟨h1.2, h1.1⟩
        have hmem_erase : ∀ d, d ∈ c0 :: tl → d ≠ c → d ∈ (c0 :: tl).erase c := by
          intro d hd hdc
          exact (List.Nodup.mem_erase_iff hnodup).2 ⟨hdc, hd⟩
        have hnn : ∀ d, d ∈ c0 :: tl → d ≠ c → noNest c d := by
          intro d hd hdc
          exact hpairs hcmem hd (fun h => hdc h.symm)
        have hInv' : planInv (applyRename fs c.source (Clause.target c))
            ((c0 :: tl).erase c) := by
          refine ⟨?_, ?_, ?_, ?_⟩
          · intro d hd
            obtain ⟨hdl, hdc⟩ := herase_mem d hd
            exact applyRename_keeps _ _ _ _ (hA1 d hdl) (hnn d hdl hdc).1
          · exact hA2.sublist (List.erase_sublist _ _)
          · rw [Clause.target_def]
            exact ancClosedA_applyRename fs c.source _ hA3 hcs_mem hcs_ne
              (with_name_segments_ne _ _) (with_name_absolute _ _).symm
              (with_name_dropLast _ _).symm
          · intro d hd
            exact hA4 d (herase_mem d hd).1
        obtain ⟨rest', hacc, htrk, hframe⟩ := ih _ _ _ _ hInv' hok
        refine ⟨(c.source, Clause.target c) :: rest', ?_, ?_, ?_⟩
        · rw [hacc, List.append_assoc]
          rfl
        · intro d hd
          by_cases hdc : d = c
          · rw [hdc, track_cons]
            show track rest' (moveTo c.source (Clause.target c) c.source) = Clause.target c
            rw [moveTo_self]
            apply hframe
            · exact applyRename_maps_src fs c.source (Clause.target c) hcs_mem
            · intro d' hd'
              obtain ⟨hdl', hdc'⟩ := herase_mem d' hd'
              rw [Clause.target_def]
              exact not_underEq_with_name fs c.source d'.source c.newName hcs_ne
                (Clause.target_def c ▸ hcfree) (hA1 d' hdl') (hnn d' hdl' hdc').2
          · rw [track_cons]
            show track rest' (moveTo c.source (Clause.target c) d.source) = Clause.target d
            rw [moveTo_nomove _ _ _ (hnn d hd hdc).1]
            exact htrk d (hmem_erase d hd hdc)
        · intro q hq hqn
          rw [track_cons]
          show track rest' (moveTo c.source (Clause.target c) q) = q
          rw [moveTo_nomove _ _ _ (hqn c hcmem)]
          apply hframe
          · exact applyRename_keeps _ _ _ _ hq (hqn c hcmem)
          · intro d' hd'
            exact hqn d' (herase_mem d' hd').1
      | none =>
        rw [hfind] at hok
        by_cases hall : (c0 :: tl).all
            (fun c => ((c0 :: tl).map Clause.source).contains (Clause.target c)) = true
        · rw [if_pos hall] at hok
          obtain ⟨nmT, hteq⟩ := non_existing_sibling_with_name digestFn fs c0.source
          have ht_notin := non_existing_sibling_not_mem digestFn fs c0.source
          have hc0mem : c0 ∈ c0 :: tl := List.mem_cons_self _ _
          have hc0s : c0.source ∈ fs := hA1 c0 hc0mem
          have hc0ne : c0.source.segments ≠ [] := hA4 c0 hc0mem
          have ht_ne : (non_existing_sibling digestFn fs c0.source).segments ≠ [] := by
            rw [hteq]
            exact with_name_segments_ne _ _
          have hhead := List.pairwise_cons.1 hA2
          have hInv' : planInv
              (applyRename fs c0.source (non_existing_sibling digestFn fs c0.source))
              (⟨non_existing_sibling digestFn fs c0.source, c0.newName⟩ :: tl) := by
            refine ⟨?_, ?_, ?_, ?_⟩
            · intro d hd
              rcases List.mem_cons.1 hd with heq | hdtl
              · rw [heq]
                exact applyRename_maps_src fs c0.source _ hc0s
              · exact applyRename_keeps _ _ _ _ (hA1 d (List.mem_cons_of_mem _ hdtl))
                  (hhead.1 d hdtl).1
            · rw [List.pairwise_cons]
              refine ⟨?_, hhead.2⟩
              intro d hdtl
              constructor
              · exact not_underEq_of_not_mem fs _ d.source hA3
                  (hA1 d (List.mem_cons_of_mem _ hdtl)) ht_notin ht_ne
              · show ¬underEq d.source (non_existing_sibling digestFn fs c0.source)
                rw [hteq]
                exact not_underEq_with_name fs c0.source d.source nmT hc0ne
                  (hteq ▸ ht_notin) (hA1 d (List.mem_cons_of_mem _ hdtl)) (hhead.1 d hdtl).2
            · apply ancClosedA_applyRename fs c0.source _ hA3 hc0s hc0ne ht_ne ?_ ?_
              · rw [hteq]
                exact (with_name_absolute _ _).symm
              · rw [hteq]
                exact (with_name_dropLast _ _).symm
            · intro d hd
              rcases List.mem_cons.1 hd with heq | hdtl
              · rw [heq]
                exact ht_ne
              · exact hA4 d (List.mem_cons_of_mem _ hdtl)
          obtain ⟨rest', hacc, htrk, hframe⟩ := ih _ _ _ _ hInv' hok
          refine ⟨(c0.source, non_existing_sibling digestFn fs c0.source) :: rest',
            ?_, ?_, ?_⟩
          · rw [hacc, List.append_assoc]
            rfl
          · intro d hd
            rcases List.mem_cons.1 hd with heq | hdtl
            · rw [heq, track_cons]
              show track rest'
                (moveTo c0.source (non_existing_sibling digestFn fs c0.source) c0.source) =
                Clause.target c0
              rw [moveTo_self]
              have h1 := htrk ⟨non_existing_sibling digestFn fs c0.source, c0.newName⟩
                (List.mem_cons_self _ _)
              have h2 : Clause.target ⟨non_existing_sibling digestFn fs c0.source,
                  c0.newName⟩ = Clause.target c0 := by
                show with_name (non_existing_sibling digestFn fs c0.source) c0.newName =
                  with_name c0.source c0.newName
                rw [hteq, with_name_with_name]
              rw [← h2]
              exact h1
            · rw [track_cons]
              show track rest'
                (moveTo c0.source (non_existing_sibling digestFn fs c0.source) d.source) =
                Clause.target d
              rw [moveTo_nomove _ _ _ (hhead.1 d hdtl).1]
              exact htrk d (List.mem_cons_of_mem _ hdtl)
          · intro q hq hqn
            rw [track_cons]
            show track rest'
              (moveTo c0.source (non_existing_sibling digestFn fs c0.source) q) = q
            rw [moveTo_nomove _ _ _ (hqn c0 hc0mem)]
            apply hframe
            · exact applyRename_keeps _ _ _ _ hq (hqn c0 hc0mem)
            · intro d' hd'
              rcases List.mem_cons.1 hd' with heq | hdtl'
              · rw [heq]
                exact not_underEq_of_not_mem fs _ q hA3 hq ht_notin ht_ne
              · exact hqn d' (List.mem_cons_of_mem _ hdtl')
        · rw [if_neg hall] at hok
          cases hok

/-! ## Claims -/

/-- C4 (amended): for an absolute, non-root path `p` with well-formed,
glob-metacharacter-free segments, `children(p)` enumerates exactly the
members of the set whose parent equals `p`.  (As literally stated the claim
fails: `Path.match` anchors relative patterns on the right, see the
counterexample.) -/
theorem C4_children_exact (fs : Finset Path) (p : Path) (habs : p.absolute = true)
    (hne : p.segments ≠ []) (hv : validPath p = true)
    (hfree : p.segments.all globFree = true) :
    ∀ c, c ∈ children fs p ↔ c ∈ fs ∧ Path.parent c = p := by
  intro c
  unfold children
  rw [Finset.mem_filter]
  constructor
  · rintro ⟨hcfs, hcm⟩
    refine ⟨hcfs, ?_⟩
    rw [parent_eq_iff c p hne]
    have h := (childMatch_abs_iff p c habs hne hv hfree).1 hcm
    exact ⟨h.1.trans habs.symm, h.2⟩
  · rintro ⟨hcfs, hpar⟩
    rw [parent_eq_iff c p hne] at hpar
    exact ⟨hcfs, (childMatch_abs_iff p c habs hne hv hfree).2 ⟨hpar.1.trans habs, hpar.2⟩⟩

/-- Witness for C4: a concrete instance of the amended statement. -/
theorem C4_children_exact_witness :
    (⟨true, [['d'], ['x']]⟩ : Path) ∈
        children {(⟨true, [['d'], ['x']]⟩ : Path)} ⟨true, [['d']]⟩ ↔
      (⟨true, [['d'], ['x']]⟩ : Path) ∈ ({⟨true, [['d'], ['x']]⟩} : Finset Path) ∧
        Path.parent (⟨true, [['d'], ['x']]⟩ : Path) = ⟨true, [['d']]⟩ :=
  C4_children_exact {(⟨true, [['d'], ['x']]⟩ : Path)} ⟨true, [['d']]⟩ (by decide) (by decide)
    (by decide) (by decide) ⟨true, [['d'], ['x']]⟩

/-- Counterexample to C4 as stated: with relative paths, the pattern
`d/*` is matched from the right, so the member `a/d/x` is yielded by
`children(d)` although its parent is `a/d`, not `d`. -/
theorem C4_children_counterexample :
    (⟨false, [['a'], ['d'], ['x']]⟩ : Path) ∈
      children {(⟨false, [['a'], ['d'], ['x']]⟩ : Path)} ⟨false, [['d']]⟩ ∧
    Path.parent (⟨false, [['a'], ['d'], ['x']]⟩ : Path) ≠ (⟨false, [['d']]⟩ : Path) := by
  decide

/-- C5 (amended): a `FileSystem` built from a non-empty initial collection is
pure — `path_exists` is set membership and `siblings(p)` is
`children(p.parent)` (the glob-based enumeration, which coincides with the
members whose parent equals `p.parent` only for well-formed absolute paths,
cf. C4) — while one built from an empty collection delegates both to the
real filesystem. -/
theorem C5_mode_dispatch (initPaths : List Path) (rfs : RealFS) (p : Path) :
    (initPaths ≠ [] →
      ((path_exists rfs (FileSystem.init initPaths) p = true ↔
          p ∈ (FileSystem.init initPaths).paths) ∧
        siblings rfs (FileSystem.init initPaths) p =
          children (FileSystem.init initPaths).paths (Path.parent p))) ∧
    (initPaths = [] →
      (path_exists rfs (FileSystem.init initPaths) p = rfs.realExists p ∧
        siblings rfs (FileSystem.init initPaths) p =
          (rfs.realGlobChildren (Path.parent p)).toFinset)) := by
  constructor
  · intro hne
    have hpure : (FileSystem.init initPaths).pureMode = true := by
      unfold FileSystem.init
      simp only [Bool.not_eq_true']
      rw [← Bool.not_eq_true]
      simpa [List.isEmpty_iff] using hne
    refine ⟨?_, ?_⟩
    · unfold path_exists
      rw [if_pos hpure]
      simp
    · unfold siblings
      rw [if_pos hpure]
  · intro hemp
    subst hemp
    have hpure : ¬((FileSystem.init []).pureMode = true) := by
      unfold FileSystem.init
      simp
    exact ⟨by unfold path_exists; rw [if_neg hpure],
      by unfold siblings; rw [if_neg hpure]⟩

/-- Witness for C5: both modes at concrete inputs. -/
theorem C5_mode_dispatch_witness :
    ((path_exists ⟨fun _ => false, fun _ => []⟩
          (FileSystem.init [⟨true, [['d'], ['a']]⟩]) ⟨true, [['d'], ['a']]⟩ = true ↔
        (⟨true, [['d'], ['a']]⟩ : Path) ∈
          (FileSystem.init [⟨true, [['d'], ['a']]⟩]).paths) ∧
      siblings ⟨fun _ => false, fun _ => []⟩
          (FileSystem.init [⟨true, [['d'], ['a']]⟩]) ⟨true, [['d'], ['a']]⟩ =
        children (FileSystem.init [⟨true, [['d'], ['a']]⟩]).paths
          (Path.parent ⟨true, [['d'], ['a']]⟩)) ∧
    (path_exists ⟨fun _ => false, fun _ => []⟩
        (FileSystem.init ([] : List Path)) ⟨true, [['d'], ['a']]⟩ =
      RealFS.realExists ⟨fun _ => false, fun _ => []⟩ ⟨true, [['d'], ['a']]⟩) :=
  ⟨(C5_mode_dispatch [⟨true, [['d'], ['a']]⟩] ⟨fun _ => false, fun _ => []⟩
      ⟨true, [['d'], ['a']]⟩).1 (by decide),
    ((C5_mode_dispatch ([] : List Path) ⟨fun _ => false, fun _ => []⟩
      ⟨true, [['d'], ['a']]⟩).2 rfl).1⟩

/-- Counterexample to C5 as stated: in a pure `FileSystem`, `siblings(p)` can
yield a member whose parent differs from `p.parent` (right-anchored relative
glob matching). -/
theorem C5_siblings_counterexample :
    ((⟨false, [['a'], ['d'], ['x']]⟩ : Path) ∈
      siblings ⟨fun _ => false, fun _ => []⟩
        (FileSystem.init [⟨false, [['a'], ['d'], ['x']]⟩]) ⟨false, [['d'], ['w']]⟩) ∧
    Path.parent (⟨false, [['a'], ['d'], ['x']]⟩ : Path) ≠
      Path.parent (⟨false, [['d'], ['w']]⟩ : Path) := by
  decide

/-- C6: for a pure `FileSystem`, `update_with_source_paths` raises
`FileNotFoundError` exactly when some source path is absent from the set,
and when all are present it returns with the set unchanged (the union of
siblings is a no-op in pure mode). -/
theorem C6_close_over (rfs : RealFS) (fs : FileSystem) (srcs : List Path)
    (hpure : fs.pureMode = true) :
    ((∃ e, update_with_source_paths rfs fs srcs = .error e) ↔ ∃ s ∈ srcs, s ∉ fs.paths) ∧
    ((∀ s ∈ srcs, s ∈ fs.paths) → update_with_source_paths rfs fs srcs = .ok fs) := by
  constructor
  · have hlift : (∃ e, update_with_source_paths rfs fs srcs = .error e) ↔
        (∃ e, updateLoop rfs srcs fs ∅ = .error e) := by
      unfold update_with_source_paths
      cases hu : updateLoop rfs srcs fs ∅ with
      | error e => simp
      | ok pr => obtain ⟨a, b⟩ := pr; simp
    rw [hlift, updateLoop_error_iff]
    constructor
    · rintro ⟨s, hs, hf⟩
      refine ⟨s, hs, ?_⟩
      unfold path_exists at hf
      rw [if_pos hpure] at hf
      simpa using hf
    · rintro ⟨s, hs, hf⟩
      refine ⟨s, hs, ?_⟩
      unfold path_exists
      rw [if_pos hpure]
      simpa using hf
  · exact update_pure_noop rfs fs srcs hpure

/-- Witness for C6 at concrete inputs. -/
theorem C6_close_over_witness :
    ((∃ e, update_with_source_paths ⟨fun _ => false, fun _ => []⟩
          ⟨{⟨true, [['d'], ['a']]⟩}, true⟩ [⟨true, [['d'], ['a']]⟩] = .error e) ↔
      ∃ s ∈ [(⟨true, [['d'], ['a']]⟩ : Path)],
        s ∉ ({⟨true, [['d'], ['a']]⟩} : Finset Path)) ∧
    ((∀ s ∈ [(⟨true, [['d'], ['a']]⟩ : Path)],
        s ∈ ({⟨true, [['d'], ['a']]⟩} : Finset Path)) →
      update_with_source_paths ⟨fun _ => false, fun _ => []⟩
          ⟨{⟨true, [['d'], ['a']]⟩}, true⟩ [⟨true, [['d'], ['a']]⟩] =
        .ok ⟨{⟨true, [['d'], ['a']]⟩}, true⟩) :=
  C6_close_over ⟨fun _ => false, fun _ => []⟩ ⟨{⟨true, [['d'], ['a']]⟩}, true⟩
    [⟨true, [['d'], ['a']]⟩] (by decide)

/-- C7: on a pure `FileSystem` with all source paths present, running
`update_with_source_paths` twice gives the same result as running it once. -/
theorem C7_close_over_idem (rfs : RealFS) (fs : FileSystem) (srcs : List Path)
    (hpure : fs.pureMode = true) (hall : ∀ s ∈ srcs, s ∈ fs.paths) :
    (update_with_source_paths rfs fs srcs).bind
        (fun fs2 => update_with_source_paths rfs fs2 srcs) =
      update_with_source_paths rfs fs srcs := by
  rw [update_pure_noop rfs fs srcs hpure hall]
  show update_with_source_paths rfs fs srcs = Except.ok fs
  exact update_pure_noop rfs fs srcs hpure hall

/-- Witness for C7 at concrete inputs. -/
theorem C7_close_over_idem_witness :
    (update_with_source_paths ⟨fun _ => false, fun _ => []⟩
        ⟨{⟨true, [['d'], ['a']]⟩}, true⟩ [⟨true, [['d'], ['a']]⟩]).bind
      (fun fs2 => update_with_source_paths ⟨fun _ => false, fun _ => []⟩
        fs2 [⟨true, [['d'], ['a']]⟩]) =
    update_with_source_paths ⟨fun _ => false, fun _ => []⟩
      ⟨{⟨true, [['d'], ['a']]⟩}, true⟩ [⟨true, [['d'], ['a']]⟩] :=
  C7_close_over_idem ⟨fun _ => false, fun _ => []⟩ ⟨{⟨true, [['d'], ['a']]⟩}, true⟩
    [⟨true, [['d'], ['a']]⟩] (by decide) (by decide)

/-- C8: whenever `update_with_source_paths` raises, the `FileSystem` is
exactly as it was before the call: the sibling accumulation happens in a
local set and `self.update` runs only after every source was checked. -/
theorem C8_close_over_atomic (rfs : RealFS) (fs : FileSystem) (srcs : List Path)
    (m : Path) (fs2 : FileSystem)
    (herr : update_with_source_paths rfs fs srcs = .error (m, fs2)) :
    fs2 = fs := by
  unfold update_with_source_paths at herr
  cases hu : updateLoop rfs srcs fs ∅ with
  | error e =>
    rw [hu] at herr
    obtain ⟨em, efs⟩ := e
    injection herr with h
    injection h with h1 h2
    exact h2 ▸ (updateLoop_error_state rfs srcs fs ∅ em efs hu).1
  | ok pr =>
    rw [hu] at herr
    obtain ⟨a, b⟩ := pr
    simp at herr

/-- Witness for C8: a concrete failing `update_with_source_paths` leaves the
set untouched. -/
theorem C8_close_over_atomic_witness :
    (⟨{⟨true, [['d'], ['a']]⟩}, true⟩ : FileSystem) = ⟨{⟨true, [['d'], ['a']]⟩}, true⟩ :=
  C8_close_over_atomic ⟨fun _ => false, fun _ => []⟩ ⟨{⟨true, [['d'], ['a']]⟩}, true⟩
    [⟨true, [['d'], ['b']]⟩] ⟨true, [['d'], ['b']]⟩ ⟨{⟨true, [['d'], ['a']]⟩}, true⟩ (by rfl)

/-- C3: for every genuine path `p` that has a name, `non_existing_sibling(p)`
returns — without raising — a sibling of `p` that is absent from the set,
preserving the extension; its stem is the first 32 characters of the digest
of `p`'s stem followed by a dash and the smallest suffix whose candidate is
absent.  As originally stated, over every path `p`, the claim fails at
`Path('/')` and `Path('.')`, whose empty name makes `with_stem` raise
`ValueError`. -/
theorem C3_fresh_sibling (digestFn : Name → Name) (fs : Finset Path) (p : Path)
    (hne : p.segments ≠ [])
    (hval : validPath p = true)
    (hhex : ∀ c ∈ (digestFn (nameStem (Path.name p))).take 32, isHexChar c = true) :
    non_existing_siblingE digestFn fs p = .ok (non_existing_sibling digestFn fs p) ∧
    Path.parent (non_existing_sibling digestFn fs p) = Path.parent p ∧
    non_existing_sibling digestFn fs p ∉ fs ∧
    nameSuffix (Path.name (non_existing_sibling digestFn fs p)) =
      nameSuffix (Path.name p) ∧
    ∃ k, non_existing_sibling digestFn fs p = candidateSibling digestFn p k ∧
      nameStem (Path.name (non_existing_sibling digestFn fs p)) =
        (digestFn (nameStem (Path.name p))).take 32 ++ '-' :: natDec k ∧
      ∀ m < k, candidateSibling digestFn p m ∈ fs := by
  refine ⟨?_, with_name_parent p _ hne,
    Nat.find_spec (freshIndexExists digestFn fs p),
    (candidateSibling_name digestFn p _ hhex).2,
    Nat.find (freshIndexExists digestFn fs p), rfl,
    (candidateSibling_name digestFn p _ hhex).1, ?_⟩
  · have hok := (candidateSiblingE_ok_iff digestFn p 0).2
      ⟨name_ne_nil p hne hval,
       fun c hc => isHexChar_ne_slash c (hhex c hc),
       suffix_no_slash p hne hval⟩
    unfold non_existing_siblingE
    rw [hok]
  · intro m hm
    exact not_not.1 (Nat.find_min (freshIndexExists digestFn fs p) hm)

/-- Witness for C3 at concrete inputs. -/
theorem C3_fresh_sibling_witness :
    non_existing_siblingE (fun _ => ['a', 'b']) ∅ ⟨true, [['a']]⟩ =
      .ok (non_existing_sibling (fun _ => ['a', 'b']) ∅ ⟨true, [['a']]⟩) ∧
    Path.parent (non_existing_sibling (fun _ => ['a', 'b']) ∅ ⟨true, [['a']]⟩) =
        Path.parent (⟨true, [['a']]⟩ : Path) ∧
    non_existing_sibling (fun _ => ['a', 'b']) ∅ ⟨true, [['a']]⟩ ∉ (∅ : Finset Path) ∧
    nameSuffix (Path.name (non_existing_sibling (fun _ => ['a', 'b']) ∅ ⟨true, [['a']]⟩)) =
      nameSuffix (Path.name (⟨true, [['a']]⟩ : Path)) ∧
    ∃ k, non_existing_sibling (fun _ => ['a', 'b']) ∅ ⟨true, [['a']]⟩ =
        candidateSibling (fun _ => ['a', 'b']) ⟨true, [['a']]⟩ k ∧
      nameStem (Path.name (non_existing_sibling (fun _ => ['a', 'b']) ∅ ⟨true, [['a']]⟩)) =
        ((fun (_ : Name) => ['a', 'b'])
            (nameStem (Path.name (⟨true, [['a']]⟩ : Path)))).take 32 ++ '-' :: natDec k ∧
      ∀ m < k, candidateSibling (fun _ => ['a', 'b']) ⟨true, [['a']]⟩ m ∈ (∅ : Finset Path) :=
  C3_fresh_sibling (fun _ => ['a', 'b']) ∅ ⟨true, [['a']]⟩ (by decide) (by decide) (by decide)

/-- Counterexample to C3 as stated: the claim quantifies over every path
`p`, but at `p = Path('.')` — which has no name — the real
`non_existing_sibling` raises `ValueError` in its first `with_stem` call
instead of returning a sibling. -/
theorem C3_fresh_sibling_counterexample :
    non_existing_siblingE (fun _ => ['a', 'b']) (∅ : Finset Path) ⟨false, []⟩ =
      .error () := by
  rfl

/-- C1 (amended): under the stated preconditions, and provided `src` and
`dst` are non-root paths with well-formed segments, `rename(src, dst)`
removes `src` and inserts `dst`, and for every member strictly under `src`
removes it and inserts `dst` joined with its path relative to `src`;
everything else is untouched.  The result is the same for every iteration
order of the set snapshot.  (As literally stated the claim fails when `src`
is the filesystem root, see the counterexample.) -/
theorem C1_rename (S : Finset Path) (src dst : Path) (order : List Path)
    (hval : ∀ c ∈ S, validPath c = true)
    (hvs : validPath src = true) (hvd : validPath dst = true)
    (hsne : src.segments ≠ []) (hdne : dst.segments ≠ [])
    (hmem : src ∈ S) (hnmem : dst ∉ S)
    (hsib : Path.parent src = Path.parent dst)
    (horder : order.toFinset = S) :
    ∀ x, x ∈ renameLoop src dst order S ↔
      (x = dst ∨
       (∃ c ∈ S, strictlyUnder src c ∧
         x = ⟨dst.absolute, dst.segments ++ c.segments.drop src.segments.length⟩) ∨
       (x ∈ S ∧ x ≠ src ∧ ¬strictlyUnder src x)) := by
  have hmemo : ∀ y : Path, y ∈ order ↔ y ∈ S := by
    intro y
    rw [← horder, List.mem_toFinset]
  have hneqsd : src ≠ dst := fun h => hnmem (h ▸ hmem)
  have hK : ∀ c ∈ order, renMatches src c = true →
      renMatches src (renImage src dst c) = false := by
    intro c hc hm
    exact renMatches_image_false src dst c (hval c ((hmemo c).1 hc)) hvs hvd hsne hdne
      hneqsd hsib hm
  intro x
  rw [renameLoop_mem src dst order S hK x]
  constructor
  · rintro (⟨hxS, hnm⟩ | ⟨c, hcord, hcm, hx⟩)
    · refine Or.inr (Or.inr ⟨hxS, ?_, ?_⟩)
      · intro hxsrc
        exact hnm ⟨by rw [hxsrc]; exact renMatches_self src, (hmemo x).2 hxS⟩
      · intro hux
        apply hnm
        refine ⟨?_, (hmemo x).2 hxS⟩
        rw [renMatches_iff src x hvs (hval x hxS) hsne]
        exact Or.inr hux
    · have hcS := (hmemo c).1 hcord
      rcases (renMatches_iff src c hvs (hval c hcS) hsne).1 hcm with heqc | hu
      · rw [heqc, renImage_self] at hx
        exact Or.inl hx
      · rw [renImage_under src dst c hvs (hval c hcS) hsne hu] at hx
        exact Or.inr (Or.inl ⟨c, hcS, hu, hx⟩)
  · rintro (heqd | ⟨c, hcS, hu, hx⟩ | ⟨hxS, hxsrc, hnu⟩)
    · exact Or.inr ⟨src, (hmemo src).2 hmem, renMatches_self src,
        heqd.trans (renImage_self src dst).symm⟩
    · refine Or.inr ⟨c, (hmemo c).2 hcS, ?_, ?_⟩
      · rw [renMatches_iff src c hvs (hval c hcS) hsne]
        exact Or.inr hu
      · rw [renImage_under src dst c hvs (hval c hcS) hsne hu]
        exact hx
    · refine Or.inl ⟨hxS, ?_⟩
      rintro ⟨hm, _⟩
      rcases (renMatches_iff src x hvs (hval x hxS) hsne).1 hm with heqx | hu2
      · exact hxsrc heqx
      · exact hnu hu2

/-- Witness for C1: in the directory-propagation scenario
`{dir, dir/x, dir/y}` with `dir → dir2`, the amended theorem places
`dir2/x` in the resulting set. -/
theorem C1_rename_witness :
    (⟨true, [['d'], ['d', 'i', 'r', '2'], ['x']]⟩ : Path) ∈
      renameLoop ⟨true, [['d'], ['d', 'i', 'r']]⟩ ⟨true, [['d'], ['d', 'i', 'r', '2']]⟩
        [⟨true, [['d'], ['d', 'i', 'r']]⟩, ⟨true, [['d'], ['d', 'i', 'r'], ['x']]⟩,
          ⟨true, [['d'], ['d', 'i', 'r'], ['y']]⟩]
        {⟨true, [['d'], ['d', 'i', 'r']]⟩, ⟨true, [['d'], ['d', 'i', 'r'], ['x']]⟩,
          ⟨true, [['d'], ['d', 'i', 'r'], ['y']]⟩} := by
  have h := C1_rename
    {⟨true, [['d'], ['d', 'i', 'r']]⟩, ⟨true, [['d'], ['d', 'i', 'r'], ['x']]⟩,
      ⟨true, [['d'], ['d', 'i', 'r'], ['y']]⟩}
    ⟨true, [['d'], ['d', 'i', 'r']]⟩ ⟨true, [['d'], ['d', 'i', 'r', '2']]⟩
    [⟨true, [['d'], ['d', 'i', 'r']]⟩, ⟨true, [['d'], ['d', 'i', 'r'], ['x']]⟩,
      ⟨true, [['d'], ['d', 'i', 'r'], ['y']]⟩]
    (by decide) (by decide) (by decide) (by decide) (by decide) (by decide) (by decide)
    (by decide) (by decide)
  apply (h ⟨true, [['d'], ['d', 'i', 'r', '2'], ['x']]⟩).2
  refine Or.inr (Or.inl ⟨⟨true, [['d'], ['d', 'i', 'r'], ['x']]⟩, ?_, ?_, ?_⟩)
  · decide
  · exact ⟨rfl, ⟨[['x']], rfl⟩, by decide⟩
  · decide

/-- Counterexample to C1 as stated: renaming the root `/` (which satisfies
the stated precondition, as `/` is its own parent and a sibling of `/d`)
does not propagate to the member `/x` lying strictly under it — the code's
string test uses the pattern `//`, which matches nothing — although the
claim requires `/d/x` in the result.  Both iteration orders agree. -/
theorem C1_rename_counterexample :
    renameLoop ⟨true, []⟩ ⟨true, [['d']]⟩ [⟨true, []⟩, ⟨true, [['x']]⟩]
        {⟨true, []⟩, ⟨true, [['x']]⟩} =
      {⟨true, [['d']]⟩, ⟨true, [['x']]⟩} ∧
    renameLoop ⟨true, []⟩ ⟨true, [['d']]⟩ [⟨true, [['x']]⟩, ⟨true, []⟩]
        {⟨true, []⟩, ⟨true, [['x']]⟩} =
      {⟨true, [['d']]⟩, ⟨true, [['x']]⟩} ∧
    (⟨true, []⟩ : Path) ∈ ({⟨true, []⟩, ⟨true, [['x']]⟩} : Finset Path) ∧
    (⟨true, [['d']]⟩ : Path) ∉ ({⟨true, []⟩, ⟨true, [['x']]⟩} : Finset Path) ∧
    Path.parent (⟨true, []⟩ : Path) = Path.parent (⟨true, [['d']]⟩ : Path) ∧
    strictlyUnder ⟨true, []⟩ ⟨true, [['x']]⟩ ∧
    (⟨true, [['d'], ['x']]⟩ : Path) ∉
      ({⟨true, [['d']]⟩, ⟨true, [['x']]⟩} : Finset Path) := by
  refine ⟨by decide, by decide, by decide, by decide, by decide, ?_, by decide⟩
  exact ⟨rfl, ⟨[['x']], rfl⟩, by decide⟩

/-- C10: members neither equal to `src` nor strictly under it survive
`rename(src, dst)` unchanged, with no precondition on `src` and `dst`; in
particular when `src` is absent and nothing lies under it the set is
entirely unchanged. -/
theorem C10_rename_frame (S : Finset Path) (src dst : Path) (order : List Path)
    (hval : ∀ c ∈ S, validPath c = true) (hvs : validPath src = true)
    (horder : order.toFinset = S) :
    (∀ c ∈ S, c ≠ src → ¬strictlyUnder src c → c ∈ renameLoop src dst order S) ∧
    ((src ∉ S ∧ ∀ c ∈ S, ¬strictlyUnder src c) → renameLoop src dst order S = S) := by
  have hmemo : ∀ y : Path, y ∈ order ↔ y ∈ S := by
    intro y
    rw [← horder, List.mem_toFinset]
  constructor
  · intro c hcS hcsrc hnu
    apply renameLoop_keeps src dst order S c hcS
    cases hmm : renMatches src c with
    | false => rfl
    | true =>
      exfalso
      rcases renMatches_true_cases src c hvs (hval c hcS) hmm with heqc | hu
      · exact hcsrc heqc
      · exact hnu hu
  · rintro ⟨hsrc, hnone⟩
    apply renameLoop_noop
    intro c hcord
    have hcS := (hmemo c).1 hcord
    cases hmm : renMatches src c with
    | false => rfl
    | true =>
      exfalso
      rcases renMatches_true_cases src c hvs (hval c hcS) hmm with heqc | hu
      · rw [heqc] at hcS
        exact hsrc hcS
      · exact hnone c hcS hu

/-- Witness for C10 at concrete inputs: renaming an absent path leaves the
set unchanged and keeps its members. -/
theorem C10_rename_frame_witness :
    (∀ c ∈ ({⟨true, [['a']]⟩} : Finset Path), c ≠ ⟨true, [['b']]⟩ →
      ¬strictlyUnder ⟨true, [['b']]⟩ c →
      c ∈ renameLoop ⟨true, [['b']]⟩ ⟨true, [['c']]⟩ [⟨true, [['a']]⟩]
        {⟨true, [['a']]⟩}) ∧
    (((⟨true, [['b']]⟩ : Path) ∉ ({⟨true, [['a']]⟩} : Finset Path) ∧
      ∀ c ∈ ({⟨true, [['a']]⟩} : Finset Path), ¬strictlyUnder ⟨true, [['b']]⟩ c) →
      renameLoop ⟨true, [['b']]⟩ ⟨true, [['c']]⟩ [⟨true, [['a']]⟩] {⟨true, [['a']]⟩} =
        {⟨true, [['a']]⟩}) :=
  C10_rename_frame {⟨true, [['a']]⟩} ⟨true, [['b']]⟩ ⟨true, [['c']]⟩ [⟨true, [['a']]⟩]
    (by decide) (by decide) (by decide)

/-- C9: for every genuine path that has a name, the suffix search of
`non_existing_sibling` terminates for every finite set — there is a
smallest suffix whose candidate is absent, and the function returns that
candidate, guaranteed absent.  The function is however not total over all
paths: at `Path('/')` and `Path('.')`, whose name is empty, it raises
`ValueError` in its first `with_stem` call instead of returning. -/
theorem C9_fresh_sibling_total (digestFn : Name → Name) (fs : Finset Path) (p : Path)
    (hhex : ∀ c ∈ (digestFn (nameStem (Path.name p))).take 32, isHexChar c = true)
    (hval : validPath p = true) :
    (p.segments = [] → non_existing_siblingE digestFn fs p = .error ()) ∧
    (p.segments ≠ [] →
      non_existing_siblingE digestFn fs p = .ok (non_existing_sibling digestFn fs p) ∧
      non_existing_sibling digestFn fs p ∉ fs ∧
      ∃ n, candidateSibling digestFn p n ∉ fs ∧
        ∀ m < n, candidateSibling digestFn p m ∈ fs) := by
  constructor
  · intro hnil
    have hni : (Path.name p).isEmpty = true := by
      unfold Path.name
      rw [hnil]
      rfl
    unfold non_existing_siblingE candidateSiblingE with_stemE with_nameE
    rw [if_pos hni]
  · intro hne
    refine ⟨?_, Nat.find_spec (freshIndexExists digestFn fs p),
      Nat.find (freshIndexExists digestFn fs p),
      Nat.find_spec (freshIndexExists digestFn fs p), ?_⟩
    · have hok := (candidateSiblingE_ok_iff digestFn p 0).2
        ⟨name_ne_nil p hne hval,
         fun c hc => isHexChar_ne_slash c (hhex c hc),
         suffix_no_slash p hne hval⟩
      unfold non_existing_siblingE
      rw [hok]
    · intro m hm
      exact not_not.1 (Nat.find_min (freshIndexExists digestFn fs p) hm)

/-- Witness for C9 at concrete inputs: on `/x` the search returns an absent
candidate with a least suffix. -/
theorem C9_fresh_sibling_total_witness :
    non_existing_siblingE (fun _ => ['c']) (∅ : Finset Path) ⟨true, [['x']]⟩ =
      .ok (non_existing_sibling (fun _ => ['c']) ∅ ⟨true, [['x']]⟩) ∧
    non_existing_sibling (fun _ => ['c']) ∅ ⟨true, [['x']]⟩ ∉ (∅ : Finset Path) ∧
    ∃ n, candidateSibling (fun _ => ['c']) ⟨true, [['x']]⟩ n ∉ (∅ : Finset Path) ∧
      ∀ m < n, candidateSibling (fun _ => ['c']) ⟨true, [['x']]⟩ m ∈ (∅ : Finset Path) :=
  (C9_fresh_sibling_total (fun _ => ['c']) ∅ ⟨true, [['x']]⟩ (by decide) (by decide)).2
    (by decide)

/-- Counterexample to C9 as stated: the claim asserts the function is total
and always returns a path guaranteed absent, but at `p = Path('/')` the
program raises `ValueError` on the first `with_stem` call — the empty-name
check of `with_name` — and returns nothing. -/
theorem C9_fresh_sibling_counterexample :
    non_existing_siblingE (fun _ => ['a', 'b']) (∅ : Finset Path) ⟨true, []⟩ =
      .error () := by
  rfl

/-- C2: planner soundness, modelled from the spec (the planner source file
`secure_clauses.py` is absent from the repository sources).  For a valid
clause list — clause sources pairwise non-nested and non-root, the VFS
ancestor-closed — if `secure_clauses` returns an arc list, then applying
the arcs in order via `apply_rename` leaves every clause's source inode at
`source.parent / new_name`, i.e. at the clause's target. -/
theorem C2_planner_sound (digestFn : Name → Name) (fs : Finset Path)
    (clauses : List Clause) (arcs : List (Path × Path))
    (hnest : clauses.Pairwise noNest)
    (hanc : ancClosed fs)
    (hroot : ∀ c ∈ clauses, c.source.segments ≠ [])
    (hok : secure_clauses digestFn fs clauses = .ok arcs) :
    ∀ c ∈ clauses, track arcs c.source = Clause.target c := by
  unfold secure_clauses at hok
  cases hfind : clauses.find? (fun c => decide (c.source ∉ fs)) with
  | some c =>
    rw [hfind] at hok
    cases hok
  | none =>
    rw [hfind] at hok
    by_cases hnd : (clauses.map Clause.target).Nodup
    · rw [if_pos hnd] at hok
      have hsrc : ∀ c ∈ clauses, c.source ∈ fs := by
        intro c hc
        have h1 := List.find?_eq_none.1 hfind c hc
        simpa using h1
      have hInv : planInv fs clauses :=
        ⟨hsrc, hnest, (ancClosed_iff fs).1 hanc, hroot⟩
      obtain ⟨rest, hacc, htrk, _⟩ :=
        resolveLoop_sound digestFn _ fs clauses [] arcs hInv hok
      intro c hc
      rw [hacc, List.nil_append]
      exact htrk c hc
    · rw [if_neg hnd] at hok
      cases hok

/-- Witness for C2 at concrete inputs: for the chain scenario
`{/d, /d/a, /d/b}` with clauses `a→b, b→c` the planner emits
`[(/d/b, /d/c), (/d/a, /d/b)]`, and tracking each source through the arcs
lands on its target. -/
theorem C2_planner_sound_witness :
    track [(⟨true, [['d'], ['b']]⟩, ⟨true, [['d'], ['c']]⟩),
           (⟨true, [['d'], ['a']]⟩, ⟨true, [['d'], ['b']]⟩)]
        (⟨true, [['d'], ['a']]⟩ : Path) =
      Clause.target ⟨⟨true, [['d'], ['a']]⟩, ['b']⟩ ∧
    track [(⟨true, [['d'], ['b']]⟩, ⟨true, [['d'], ['c']]⟩),
           (⟨true, [['d'], ['a']]⟩, ⟨true, [['d'], ['b']]⟩)]
        (⟨true, [['d'], ['b']]⟩ : Path) =
      Clause.target ⟨⟨true, [['d'], ['b']]⟩, ['c']⟩ := by
  have h := C2_planner_sound (fun _ => ['a', 'b'])
    {⟨true, [['d']]⟩, ⟨true, [['d'], ['a']]⟩, ⟨true, [['d'], ['b']]⟩}
    [⟨⟨true, [['d'], ['a']]⟩, ['b']⟩, ⟨⟨true, [['d'], ['b']]⟩, ['c']⟩]
    [(⟨true, [['d'], ['b']]⟩, ⟨true, [['d'], ['c']]⟩),
     (⟨true, [['d'], ['a']]⟩, ⟨true, [['d'], ['b']]⟩)]
    (by decide) (by decide) (by decide) (by rfl)
  exact ⟨h ⟨⟨true, [['d'], ['a']]⟩, ['b']⟩ (by decide),
         h ⟨⟨true, [['d'], ['b']]⟩, ['c']⟩ (by decide)⟩

end FileRenamer
